import Mathlib

/-!
Verification of the Intercept core utility module
(`static/js/core/utils.js`).

The JavaScript functions are shallowly embedded as Lean definitions:

* strings are `String` / `List Char`;
* JavaScript `null`/`undefined` arguments become `Option` inputs;
* machine numbers that are used as integers (millisecond timestamps,
  channel numbers) become `Int`/`Nat`; decimal values produced by
  `parseFloat` are modelled exactly over `ℚ`, with `none` playing the
  role of `NaN`;
* `localStorage` becomes an explicit `String → Option String` store that
  is threaded through the storage helpers;
* the timer machinery used by `debounce`/`throttle` becomes an explicit
  event-trace semantics: a wrapped function is run on a list of
  (call time, argument) events and the model returns the list of
  (invocation time, argument) events at which the wrapped `fn` fires.

Each claim-level theorem states the property from the specification over
these embeddings.
-/

namespace Intercept

/-! ## Sanitizer: `escapeAttr` (utils.js lines 24-33)

`escapeAttr` maps `null`/`undefined` to `""` and otherwise performs five
sequential global single-character replacements, in source order:
`&` → `&amp;`, `'` → `&#39;`, `"` → `&quot;`, `<` → `&lt;`, `>` → `&gt;`.
A global regex replacement of a single character is modelled by `rep`.
-/

/-- The apostrophe character (codepoint 39). -/
def aposC : Char := Char.ofNat 39

/-- The double-quote character. -/
def quoteC : Char := '"'

/-- Replacement text for `&`. -/
def ampE : List Char := ['&', 'a', 'm', 'p', ';']

/-- Replacement text for the apostrophe. -/
def aposE : List Char := ['&', '#', '3', '9', ';']

/-- Replacement text for the double quote. -/
def quotE : List Char := ['&', 'q', 'u', 'o', 't', ';']

/-- Replacement text for `<`. -/
def ltE : List Char := ['&', 'l', 't', ';']

/-- Replacement text for `>`. -/
def gtE : List Char := ['&', 'g', 't', ';']

/-- `rep c r l` replaces every occurrence of the character `c` in `l` by
the string `r`; this is `String.prototype.replace` with a global
single-character regex. -/
def rep (c : Char) (r : List Char) : List Char → List Char
  | [] => []
  | x :: xs => (if x = c then r else [x]) ++ rep c r xs

/-- Embedding of `escapeAttr` (utils.js lines 24-33): `null`/`undefined`
(modelled by `none`) map to the empty string, otherwise the five global
replacements run in source order, ampersand first. -/
def escapeAttr : Option String → String
  | none => ""
  | some text =>
      String.mk
        (rep '>' gtE
          (rep '<' ltE
            (rep quoteC quotE
              (rep aposC aposE
                (rep '&' ampE text.toList)))))

/-- The per-character view of the five sequential passes: what a single
source character contributes to the final output. -/
def escCharFull (x : Char) : List Char :=
  if x = '&' then ampE
  else if x = aposC then aposE
  else if x = quoteC then quotE
  else if x = '<' then ltE
  else if x = '>' then gtE
  else [x]

/-- A character list is *attribute safe* when it is a concatenation of
entities `&amp; &#39; &quot; &lt; &gt;` and of plain characters that are
none of `< > " ' &`.  Such a list has no unescaped occurrence of any of
the five dangerous characters. -/
inductive SafeStr : List Char → Prop
  | nil : SafeStr []
  | chr {c : Char} {l : List Char} :
      c ≠ '<' → c ≠ '>' → c ≠ quoteC → c ≠ aposC → c ≠ '&' →
      SafeStr l → SafeStr (c :: l)
  | ent_amp {l : List Char} : SafeStr l → SafeStr (ampE ++ l)
  | ent_apos {l : List Char} : SafeStr l → SafeStr (aposE ++ l)
  | ent_quot {l : List Char} : SafeStr l → SafeStr (quotE ++ l)
  | ent_lt {l : List Char} : SafeStr l → SafeStr (ltE ++ l)
  | ent_gt {l : List Char} : SafeStr l → SafeStr (gtE ++ l)

theorem rep_append (c : Char) (r : List Char) (l1 l2 : List Char) :
    rep c r (l1 ++ l2) = rep c r l1 ++ rep c r l2 := by
  induction l1 with
  | nil => simp [rep]
  | cons x xs ih => simp [rep, ih]

theorem escapeAttr_body_cons (x : Char) (xs : List Char) :
    rep '>' gtE (rep '<' ltE (rep quoteC quotE (rep aposC aposE
      (rep '&' ampE (x :: xs))))) =
    escCharFull x ++
      rep '>' gtE (rep '<' ltE (rep quoteC quotE (rep aposC aposE
        (rep '&' ampE xs)))) := by
  have hx : rep '&' ampE (x :: xs)
      = (if x = '&' then ampE else [x]) ++ rep '&' ampE xs := rfl
  by_cases h1 : x = '&'
  · subst h1
    rw [hx, if_pos rfl, rep_append,
        show rep aposC aposE ampE = ampE from by decide, rep_append,
        show rep quoteC quotE ampE = ampE from by decide, rep_append,
        show rep '<' ltE ampE = ampE from by decide, rep_append,
        show rep '>' gtE ampE = ampE from by decide,
        show escCharFull '&' = ampE from by decide]
  · by_cases h2 : x = aposC
    · subst h2
      rw [hx, if_neg h1, rep_append,
          show rep aposC aposE [aposC] = aposE from by decide, rep_append,
          show rep quoteC quotE aposE = aposE from by decide, rep_append,
          show rep '<' ltE aposE = aposE from by decide, rep_append,
          show rep '>' gtE aposE = aposE from by decide,
          show escCharFull aposC = aposE from by decide]
    · by_cases h3 : x = quoteC
      · subst h3
        rw [hx, if_neg h1, rep_append,
            show rep aposC aposE [quoteC] = [quoteC] from by decide, rep_append,
            show rep quoteC quotE [quoteC] = quotE from by decide, rep_append,
            show rep '<' ltE quotE = quotE from by decide, rep_append,
            show rep '>' gtE quotE = quotE from by decide,
            show escCharFull quoteC = quotE from by decide]
      · by_cases h4 : x = '<'
        · subst h4
          rw [hx, if_neg h1, rep_append,
              show rep aposC aposE ['<'] = ['<'] from by decide, rep_append,
              show rep quoteC quotE ['<'] = ['<'] from by decide, rep_append,
              show rep '<' ltE ['<'] = ltE from by decide, rep_append,
              show rep '>' gtE ltE = ltE from by decide,
              show escCharFull '<' = ltE from by decide]
        · by_cases h5 : x = '>'
          · subst h5
            rw [hx, if_neg h1, rep_append,
                show rep aposC aposE ['>'] = ['>'] from by decide, rep_append,
                show rep quoteC quotE ['>'] = ['>'] from by decide, rep_append,
                show rep '<' ltE ['>'] = ['>'] from by decide, rep_append,
                show rep '>' gtE ['>'] = gtE from by decide,
                show escCharFull '>' = gtE from by decide]
          · rw [hx, if_neg h1, rep_append,
                show rep aposC aposE [x] = [x] from by simp [rep, h2], rep_append,
                show rep quoteC quotE [x] = [x] from by simp [rep, h3], rep_append,
                show rep '<' ltE [x] = [x] from by simp [rep, h4], rep_append,
                show rep '>' gtE [x] = [x] from by simp [rep, h5],
                show escCharFull x = [x] from by
                  simp [escCharFull, h1, h2, h3, h4, h5]]

theorem safeStr_escape_body (l : List Char) :
    SafeStr (rep '>' gtE (rep '<' ltE (rep quoteC quotE (rep aposC aposE
      (rep '&' ampE l))))) := by
  induction l with
  | nil => exact SafeStr.nil
  | cons x xs ih =>
      rw [escapeAttr_body_cons]
      by_cases h1 : x = '&'
      · subst h1; rw [show escCharFull '&' = ampE from by decide]
        exact SafeStr.ent_amp ih
      · by_cases h2 : x = aposC
        · subst h2
          rw [show escCharFull aposC = aposE from by decide]
          exact SafeStr.ent_apos ih
        · by_cases h3 : x = quoteC
          · subst h3
            rw [show escCharFull quoteC = quotE from by decide]
            exact SafeStr.ent_quot ih
          · by_cases h4 : x = '<'
            · subst h4
              rw [show escCharFull '<' = ltE from by decide]
              exact SafeStr.ent_lt ih
            · by_cases h5 : x = '>'
              · subst h5
                rw [show escCharFull '>' = gtE from by decide]
                exact SafeStr.ent_gt ih
              · rw [show escCharFull x = [x] from by
                  simp [escCharFull, h1, h2, h3, h4, h5]]
                exact SafeStr.chr h4 h5 h3 h2 h1 ih

/-- C5: `escapeForAttribute` (`escapeAttr`) maps null and undefined to
the empty string, and for every other input replaces `& ' " < >` —
ampersand first — by named character references, so that for every
string the result contains no unescaped occurrence of `< > " '` or `&`
(formalised: the output is a concatenation of the five entities and of
plain characters that are none of the five). -/
theorem escapeAttr_safe :
    escapeAttr none = "" ∧
    (∀ s : String, SafeStr (escapeAttr (some s)).toList) ∧
    escapeAttr (some "&") = "&amp;" ∧
    escapeAttr (some (String.mk [aposC])) = String.mk aposE ∧
    escapeAttr (some (String.mk [quoteC])) = String.mk quotE ∧
    escapeAttr (some "<") = "&lt;" ∧
    escapeAttr (some ">") = "&gt;" := by
  refine ⟨rfl, ?_, by decide, by decide, by decide, by decide, by decide⟩
  intro s
  exact safeStr_escape_body s.toList

/-! ## Validator: `isValidChannel` (utils.js lines 51-54) -/

/-- The whitespace characters skipped by `parseInt` (the ASCII ones:
space, tab, line feed, vertical tab, form feed, carriage return). -/
def jsWhitespace (c : Char) : Bool :=
  c == ' ' || c == Char.ofNat 9 || c == Char.ofNat 10 ||
  c == Char.ofNat 11 || c == Char.ofNat 12 || c == Char.ofNat 13

/-- Numeric value of a run of decimal digit characters. -/
def digitsToNat (l : List Char) : Nat :=
  l.foldl (fun acc c => acc * 10 + (c.toNat - 48)) 0

/-- Embedding of `parseInt(s, 10)`: skip leading whitespace, read an
optional sign, then the longest leading run of decimal digits; the
result is `NaN` (here `none`) when that run is empty. -/
def parseInt10 (s : String) : Option Int :=
  let l := s.toList.dropWhile jsWhitespace
  let sign : Int := match l with
    | '-' :: _ => -1
    | _ => 1
  let l2 : List Char := match l with
    | '-' :: r => r
    | '+' :: r => r
    | r => r
  let ds := l2.takeWhile Char.isDigit
  if ds.isEmpty then none else some (sign * (digitsToNat ds : Int))

/-- Embedding of `isValidChannel` (utils.js lines 51-54):
`const num = parseInt(ch, 10); return !isNaN(num) && num >= 1 && num <= 200`. -/
def isValidChannel (ch : String) : Bool :=
  match parseInt10 ch with
  | none => false
  | some num => decide ((1 : Int) ≤ num) && decide (num ≤ 200)

/-- C9: `isValidChannel` never throws (it is a total function here) and
returns `true` iff the input parses as a base-10 integer in `[1, 200]`;
non-numeric or out-of-range input gives `false`. -/
theorem isValidChannel_spec :
    (∀ ch : String, isValidChannel ch = true ↔
      ∃ n : Int, parseInt10 ch = some n ∧ 1 ≤ n ∧ n ≤ 200) ∧
    isValidChannel "6" = true ∧
    isValidChannel "201" = false ∧
    isValidChannel "abc" = false := by
  refine ⟨?_, by decide, by decide, by decide⟩
  intro ch
  unfold isValidChannel
  cases h : parseInt10 ch with
  | none => simp
  | some n => simp

/-! ## Temporal formatter: `getRelativeTime` (utils.js lines 63-75)

The ambient clock is made explicit: `nowMs` is the current instant and
`msgMs` the instant obtained by placing the parsed `HH:MM:SS` triple on
the current calendar date, both in milliseconds since the epoch, exactly
the two `Date` values subtracted by the source.  `Math.floor` division
on the signed difference is `Int.fdiv`.  The `const diff` binding of the
source is inlined. -/

/-- Embedding of `getRelativeTime` (utils.js lines 63-75). -/
def getRelativeTime (timestamp : String) (nowMs msgMs : Int) : String :=
  if timestamp = "" then ""
  else if Int.fdiv (nowMs - msgMs) 1000 < 5 then "just now"
  else if Int.fdiv (nowMs - msgMs) 1000 < 60 then
    toString (Int.fdiv (nowMs - msgMs) 1000) ++ "s ago"
  else if Int.fdiv (nowMs - msgMs) 1000 < 3600 then
    toString (Int.fdiv (Int.fdiv (nowMs - msgMs) 1000) 60) ++ "m ago"
  else timestamp

/-- C6: `getRelativeTime` returns `""` for empty input; otherwise, with
`d` the signed elapsed seconds, it returns `"just now"` for `d < 5`,
`"{d}s ago"` for `5 ≤ d < 60`, `"{floor(d/60)}m ago"` for
`60 ≤ d < 3600`, and the original timestamp for `3600 ≤ d`; the banding
holds for every integer `d`, negative values falling into the first
band. -/
theorem getRelativeTime_bands :
    (∀ nowMs msgMs : Int, getRelativeTime "" nowMs msgMs = "") ∧
    (∀ (ts : String) (nowMs msgMs : Int), ts ≠ "" →
      (Int.fdiv (nowMs - msgMs) 1000 < 5 →
        getRelativeTime ts nowMs msgMs = "just now") ∧
      (5 ≤ Int.fdiv (nowMs - msgMs) 1000 →
        Int.fdiv (nowMs - msgMs) 1000 < 60 →
        getRelativeTime ts nowMs msgMs =
          toString (Int.fdiv (nowMs - msgMs) 1000) ++ "s ago") ∧
      (60 ≤ Int.fdiv (nowMs - msgMs) 1000 →
        Int.fdiv (nowMs - msgMs) 1000 < 3600 →
        getRelativeTime ts nowMs msgMs =
          toString (Int.fdiv (Int.fdiv (nowMs - msgMs) 1000) 60) ++ "m ago") ∧
      (3600 ≤ Int.fdiv (nowMs - msgMs) 1000 →
        getRelativeTime ts nowMs msgMs = ts)) := by
  constructor
  · intro nowMs msgMs
    simp [getRelativeTime]
  · intro ts nowMs msgMs hts
    refine ⟨?_, ?_, ?_, ?_⟩
    · intro h1
      unfold getRelativeTime
      rw [if_neg hts, if_pos h1]
    · intro h1 h2
      unfold getRelativeTime
      rw [if_neg hts, if_neg (not_lt.mpr h1), if_pos h2]
    · intro h1 h2
      unfold getRelativeTime
      rw [if_neg hts,
        if_neg (not_lt.mpr (le_trans (by norm_num) h1)),
        if_neg (not_lt.mpr (le_trans (by norm_num) h1)), if_pos h2]
    · intro h1
      unfold getRelativeTime
      rw [if_neg hts,
        if_neg (not_lt.mpr (le_trans (by norm_num) h1)),
        if_neg (not_lt.mpr (le_trans (by norm_num) h1)),
        if_neg (not_lt.mpr h1)]

/-- Witness for C6 at a concrete input: a `12:00:00` message viewed from
30 seconds (30000 ms) later falls in the seconds band. -/
theorem getRelativeTime_bands_witness :
    getRelativeTime "12:00:00" 30000 0 = "30s ago" := by
  have h := (getRelativeTime_bands.2 "12:00:00" 30000 0 (by decide)).2.1
    (by decide) (by decide)
  exact h.trans (by decide)

/-! ## Geodesic calculator (utils.js lines 97-106 and 116-125)

The distance functions are embedded over the real numbers; `Math.atan2`
becomes the standard two-argument arctangent. -/

/-- Two-argument arctangent, the model of `Math.atan2 y x`. -/
noncomputable def atan2 (y x : ℝ) : ℝ :=
  if 0 < x then Real.arctan (y / x)
  else if x < 0 ∧ 0 ≤ y then Real.arctan (y / x) + Real.pi
  else if x < 0 ∧ y < 0 then Real.arctan (y / x) - Real.pi
  else if x = 0 ∧ 0 < y then Real.pi / 2
  else if x = 0 ∧ y < 0 then -(Real.pi / 2)
  else 0

/-- Embedding of `calculateDistanceNm` (utils.js lines 97-106): the
haversine formula with Earth radius 3440.065 nautical miles. -/
noncomputable def calculateDistanceNm (lat1 lon1 lat2 lon2 : ℝ) : ℝ :=
  let R : ℝ := 3440.065
  let dLat := (lat2 - lat1) * Real.pi / 180
  let dLon := (lon2 - lon1) * Real.pi / 180
  let a := Real.sin (dLat / 2) * Real.sin (dLat / 2) +
    Real.cos (lat1 * Real.pi / 180) * Real.cos (lat2 * Real.pi / 180) *
      Real.sin (dLon / 2) * Real.sin (dLon / 2)
  let c := 2 * atan2 (Real.sqrt a) (Real.sqrt (1 - a))
  R * c

/-- Embedding of `calculateDistanceKm` (utils.js lines 116-125): the
same haversine formula with Earth radius 6371 kilometers. -/
noncomputable def calculateDistanceKm (lat1 lon1 lat2 lon2 : ℝ) : ℝ :=
  let R : ℝ := 6371
  let dLat := (lat2 - lat1) * Real.pi / 180
  let dLon := (lon2 - lon1) * Real.pi / 180
  let a := Real.sin (dLat / 2) * Real.sin (dLat / 2) +
    Real.cos (lat1 * Real.pi / 180) * Real.cos (lat2 * Real.pi / 180) *
      Real.sin (dLon / 2) * Real.sin (dLon / 2)
  let c := 2 * atan2 (Real.sqrt a) (Real.sqrt (1 - a))
  R * c

theorem havA_comm (p q u v : ℝ) :
    Real.sin ((u - p) * Real.pi / 180 / 2) *
        Real.sin ((u - p) * Real.pi / 180 / 2) +
      Real.cos (p * Real.pi / 180) * Real.cos (u * Real.pi / 180) *
        Real.sin ((v - q) * Real.pi / 180 / 2) *
        Real.sin ((v - q) * Real.pi / 180 / 2) =
    Real.sin ((p - u) * Real.pi / 180 / 2) *
        Real.sin ((p - u) * Real.pi / 180 / 2) +
      Real.cos (u * Real.pi / 180) * Real.cos (p * Real.pi / 180) *
        Real.sin ((q - v) * Real.pi / 180 / 2) *
        Real.sin ((q - v) * Real.pi / 180 / 2) := by
  rw [show (p - u) * Real.pi / 180 / 2 = -((u - p) * Real.pi / 180 / 2) from by
      ring,
    show (q - v) * Real.pi / 180 / 2 = -((v - q) * Real.pi / 180 / 2) from by
      ring,
    Real.sin_neg, Real.sin_neg]
  ring

theorem atan2_zero_one : atan2 0 1 = 0 := by
  unfold atan2
  rw [if_pos (by norm_num : (0 : ℝ) < 1), zero_div, Real.arctan_zero]

theorem calculateDistanceNm_comm (lat1 lon1 lat2 lon2 : ℝ) :
    calculateDistanceNm lat1 lon1 lat2 lon2 =
      calculateDistanceNm lat2 lon2 lat1 lon1 := by
  simp only [calculateDistanceNm]
  rw [havA_comm lat1 lon1 lat2 lon2]

theorem calculateDistanceKm_comm (lat1 lon1 lat2 lon2 : ℝ) :
    calculateDistanceKm lat1 lon1 lat2 lon2 =
      calculateDistanceKm lat2 lon2 lat1 lon1 := by
  simp only [calculateDistanceKm]
  rw [havA_comm lat1 lon1 lat2 lon2]

theorem calculateDistanceNm_self (x y : ℝ) :
    calculateDistanceNm x y x y = 0 := by
  simp only [calculateDistanceNm, sub_self, zero_mul, zero_div,
    Real.sin_zero, mul_zero, zero_add, add_zero, Real.sqrt_zero, sub_zero,
    Real.sqrt_one, atan2_zero_one]

theorem calculateDistanceKm_self (x y : ℝ) :
    calculateDistanceKm x y x y = 0 := by
  simp only [calculateDistanceKm, sub_self, zero_mul, zero_div,
    Real.sin_zero, mul_zero, zero_add, add_zero, Real.sqrt_zero, sub_zero,
    Real.sqrt_one, atan2_zero_one]

/-- C1: both great-circle distance functions are symmetric under
swapping the two points, and both return 0 on identical points, for all
real coordinates. -/
theorem distance_symm_and_zero :
    (∀ lat1 lon1 lat2 lon2 : ℝ,
      calculateDistanceNm lat1 lon1 lat2 lon2 =
        calculateDistanceNm lat2 lon2 lat1 lon1) ∧
    (∀ lat1 lon1 lat2 lon2 : ℝ,
      calculateDistanceKm lat1 lon1 lat2 lon2 =
        calculateDistanceKm lat2 lon2 lat1 lon1) ∧
    (∀ x y : ℝ, calculateDistanceNm x y x y = 0) ∧
    (∀ x y : ℝ, calculateDistanceKm x y x y = 0) :=
  ⟨calculateDistanceNm_comm, calculateDistanceKm_comm,
    calculateDistanceNm_self, calculateDistanceKm_self⟩

/-! ## Frequency codec: `parseFrequency` (utils.js lines 162-164)

`parseFrequency` removes every character that is not a digit, a dot or a
minus sign (a global regex replace with the class of all other
characters), then applies `parseFloat`.  `parseFloat` is modelled
exactly over `ℚ`, with `none` for `NaN`; on the stripped character set
only sign, integer part and fraction part can occur, so the exponent and
whitespace forms of `parseFloat` are irrelevant here. -/

/-- Characters kept by the strip in `parseFrequency`: digits, the
decimal point, and the minus sign wherever they occur. -/
def freqKeep (c : Char) : Bool := c.isDigit || c == '.' || c == '-'

/-- The unsigned decimal literal part of `parseFloat`: longest leading
digit run, optionally followed by a dot and another digit run; `none`
when no digit is read on either side of the dot. -/
def parseUnsignedQ (l2 : List Char) : Option ℚ :=
  match l2.dropWhile Char.isDigit with
  | '.' :: r3 =>
      if (l2.takeWhile Char.isDigit).isEmpty &&
          (r3.takeWhile Char.isDigit).isEmpty then none
      else
        some ((digitsToNat (l2.takeWhile Char.isDigit) : ℚ) +
          (digitsToNat (r3.takeWhile Char.isDigit) : ℚ) /
            10 ^ (r3.takeWhile Char.isDigit).length)
  | _ =>
      if (l2.takeWhile Char.isDigit).isEmpty then none
      else some (digitsToNat (l2.takeWhile Char.isDigit) : ℚ)

/-- `parseFloat` on the stripped text: optional sign, then the longest
valid unsigned decimal literal prefix; `none` models `NaN`. -/
def parseFloatQ : List Char → Option ℚ
  | '-' :: r => (parseUnsignedQ r).map (fun q => -q)
  | '+' :: r => parseUnsignedQ r
  | l => parseUnsignedQ l

/-- Embedding of `parseFrequency` (utils.js lines 162-164): strip every
character outside digits, dot and minus, then `parseFloat`. -/
def parseFrequency (s : String) : Option ℚ :=
  parseFloatQ (s.toList.filter freqKeep)

/-- The procedure the claim describes: strip every character that is not
a digit, a decimal point, or a LEADING minus sign — a minus sign that is
not leading in the original text is stripped — then parse as a float.
Stated from the words of the claim, for comparison with the source
embedding `parseFrequency`. -/
def parseFrequencyClaim (s : String) : Option ℚ :=
  match s.toList with
  | '-' :: r => parseFloatQ ('-' :: r.filter (fun c => c.isDigit || c == '.'))
  | l => parseFloatQ (l.filter (fun c => c.isDigit || c == '.'))

/-- Counterexample to C7 as stated: the source keeps every minus sign,
not only a leading one.  On `"a-5"` the code strips only the letter and
parses `-5`, while the procedure of the claim strips the non-leading
minus and parses `5`. -/
theorem parseFrequency_claim_counterexample :
    parseFrequency "a-5" = some (-5) ∧
    parseFrequencyClaim "a-5" = some 5 ∧
    parseFrequency "a-5" ≠ parseFrequencyClaim "a-5" := by decide

theorem takeWhile_eq_nil_of_forall_false {p : Char → Bool}
    {l : List Char} (h : ∀ c ∈ l, p c = false) : l.takeWhile p = [] := by
  cases l with
  | nil => rfl
  | cons c r =>
      have hc := h c (List.mem_cons_self c r)
      simp [List.takeWhile_cons, hc]

theorem parseUnsignedQ_no_digits {l2 : List Char}
    (h : ∀ c ∈ l2, c.isDigit = false) : parseUnsignedQ l2 = none := by
  cases l2 with
  | nil => rfl
  | cons c r =>
      have hc := h c (List.mem_cons_self c r)
      have hr : ∀ x ∈ r, x.isDigit = false :=
        fun x hx => h x (List.mem_cons_of_mem _ hx)
      have hip : (c :: r).takeWhile Char.isDigit = [] :=
        takeWhile_eq_nil_of_forall_false h
      have hdrop : (c :: r).dropWhile Char.isDigit = c :: r := by
        simp [List.dropWhile_cons, hc]
      unfold parseUnsignedQ
      rw [hdrop, hip]
      by_cases hdot : c = '.'
      · subst hdot
        have hfp : r.takeWhile Char.isDigit = [] :=
          takeWhile_eq_nil_of_forall_false hr
        simp [hfp]
      · split
        · next r3 heq => exact absurd (List.cons.inj heq).1 hdot
        · next => simp

/-! ## Rate limiters: `debounce` and `throttle` (utils.js lines 205-232)

The wrapped functions are modelled by an explicit event-trace semantics
on the single-threaded event loop.  A run is a list of
(call time, argument) events in the order the wrapped function is
invoked; the model returns the (invocation time, argument) events at
which the inner `fn` actually fires.  The closure state of `debounce`
(`let timeout`) is the optional pending timer, carried as
`(deadline, argument)`; the state of `throttle` (`let inThrottle`
together with its unlocking timer) is the optional time at which the
lock clears.  A timer whose deadline coincides with the next call is
taken to fire first, having been scheduled earlier. -/

/-- One pass of the `debounce` event loop: before each call any pending
timer whose deadline has passed fires; the call then replaces the
pending timer (`clearTimeout` + `setTimeout`) with deadline
`now + wait` and the latest argument; a timer still pending when the
trace ends fires at its deadline. -/
def debounceGo {α : Type} (wait : Nat) :
    Option (Nat × α) → List (Nat × α) → List (Nat × α)
  | none, [] => []
  | some d, [] => [d]
  | none, (t, a) :: rest => debounceGo wait (some (t + wait, a)) rest
  | some (d, b), (t, a) :: rest =>
      if d ≤ t then (d, b) :: debounceGo wait (some (t + wait, a)) rest
      else debounceGo wait (some (t + wait, a)) rest

/-- Embedding of `debounce` (utils.js lines 205-215): run the wrapped
function on a call trace, starting with no pending timer. -/
def debounceRun {α : Type} (wait : Nat) (calls : List (Nat × α)) :
    List (Nat × α) :=
  debounceGo wait none calls

/-- The behaviour the specification describes for `debounce`, written
directly from its words: a call fires `wait` later with its argument iff
it is the last call, or the following call arrives no earlier than
`wait` after it; all other calls are cancelled. -/
def debounceSpec {α : Type} (wait : Nat) : List (Nat × α) → List (Nat × α)
  | [] => []
  | [(t, a)] => [(t + wait, a)]
  | (t, a) :: (t2, a2) :: rest =>
      if t + wait ≤ t2 then
        (t + wait, a) :: debounceSpec wait ((t2, a2) :: rest)
      else debounceSpec wait ((t2, a2) :: rest)

theorem debounceGo_pending {α : Type} (wait : Nat) :
    ∀ (l : List (Nat × α)) (t : Nat) (a : α),
      debounceGo wait (some (t + wait, a)) l =
        debounceSpec wait ((t, a) :: l) := by
  intro l
  induction l with
  | nil => intro t a; rfl
  | cons p rest ih =>
      intro t a
      obtain ⟨t2, a2⟩ := p
      by_cases h : t + wait ≤ t2
      · rw [show debounceGo wait (some (t + wait, a)) ((t2, a2) :: rest) =
            (t + wait, a) :: debounceGo wait (some (t2 + wait, a2)) rest from by
              simp [debounceGo, h],
          ih t2 a2,
          show debounceSpec wait ((t, a) :: (t2, a2) :: rest) =
            (t + wait, a) :: debounceSpec wait ((t2, a2) :: rest) from by
              simp [debounceSpec, h]]
      · rw [show debounceGo wait (some (t + wait, a)) ((t2, a2) :: rest) =
            debounceGo wait (some (t2 + wait, a2)) rest from by
              simp [debounceGo, h],
          ih t2 a2,
          show debounceSpec wait ((t, a) :: (t2, a2) :: rest) =
            debounceSpec wait ((t2, a2) :: rest) from by
              simp [debounceSpec, h]]

/-- C3: a debounced function cancels any pending invocation on each call
and reschedules `wait` later with the latest argument, so the inner
function fires exactly for the calls followed by a quiet period of at
least `wait`, `wait` after them (`debounceSpec`, written from the
specification); in particular calls at t = 0, 10, 20 with wait 50 give
exactly one firing, at t = 70, with the argument of the t = 20 call. -/
theorem debounce_quiet_period :
    (∀ (α : Type) (wait : Nat) (calls : List (Nat × α)),
      debounceRun wait calls = debounceSpec wait calls) ∧
    debounceRun 50 [(0, 1), (10, 2), (20, 3)] = [(70, 3)] := by
  constructor
  · intro α wait calls
    cases calls with
    | nil => rfl
    | cons p rest =>
        obtain ⟨t, a⟩ := p
        exact debounceGo_pending wait rest t a
  · decide

/-- One pass of the `throttle` event loop: `lock` is the time at which
the pending `setTimeout` clears `inThrottle`, `none` when unlocked.  An
unlocked call fires immediately and locks for `limit`; a call strictly
before the unlock time is dropped. -/
def throttleGo {α : Type} (limit : Nat) :
    Option Nat → List (Nat × α) → List (Nat × α)
  | _, [] => []
  | none, (t, a) :: rest => (t, a) :: throttleGo limit (some (t + limit)) rest
  | some u, (t, a) :: rest =>
      if t < u then throttleGo limit (some u) rest
      else (t, a) :: throttleGo limit (some (t + limit)) rest

/-- Embedding of `throttle` (utils.js lines 223-232): run the wrapped
function on a call trace, starting unlocked. -/
def throttleRun {α : Type} (limit : Nat) (calls : List (Nat × α)) :
    List (Nat × α) :=
  throttleGo limit none calls

theorem throttleGo_sublist {α : Type} (limit : Nat) :
    ∀ (calls : List (Nat × α)) (lock : Option Nat),
      (throttleGo limit lock calls).Sublist calls := by
  intro calls
  induction calls with
  | nil => intro lock; cases lock <;> exact List.Sublist.refl []
  | cons p rest ih =>
      intro lock
      obtain ⟨t, a⟩ := p
      cases lock with
      | none => exact (ih (some (t + limit))).cons₂ (t, a)
      | some u =>
          by_cases h : t < u
          · rw [show throttleGo limit (some u) ((t, a) :: rest) =
                throttleGo limit (some u) rest from by simp [throttleGo, h]]
            exact (ih (some u)).cons (t, a)
          · rw [show throttleGo limit (some u) ((t, a) :: rest) =
                (t, a) :: throttleGo limit (some (t + limit)) rest from by
                  simp [throttleGo, h]]
            exact (ih (some (t + limit))).cons₂ (t, a)

theorem throttleGo_drop_window {α : Type} (limit : Nat) :
    ∀ (rest : List (Nat × α)) (u : Nat),
      (∀ p ∈ rest, p.1 < u) → throttleGo limit (some u) rest = [] := by
  intro rest
  induction rest with
  | nil => intro u _; rfl
  | cons p r ih =>
      intro u h
      obtain ⟨t, a⟩ := p
      have ht : t < u := h (t, a) (List.mem_cons_self _ _)
      rw [show throttleGo limit (some u) ((t, a) :: r) =
          throttleGo limit (some u) r from by simp [throttleGo, ht]]
      exact ih u (fun q hq => h q (List.mem_cons_of_mem _ hq))

/-- C4: a throttled function fires the first call immediately, drops
(without queueing) every call arriving while locked, and fires again
immediately once the lock has cleared: the fired events are a sublist of
the call events (nothing is queued or delayed), the first call always
fires at its own time, calls inside a fully locked window leave only the
leading call, and the concrete trace t = 0, 10, 60 with limit 50 fires
at t = 0 and t = 60 and not at t = 10. -/
theorem throttle_leading_edge :
    (∀ (α : Type) (limit : Nat) (calls : List (Nat × α)),
      (throttleRun limit calls).Sublist calls) ∧
    (∀ (α : Type) (limit t : Nat) (a : α) (rest : List (Nat × α)),
      ∃ l, throttleRun limit ((t, a) :: rest) = (t, a) :: l) ∧
    (∀ (α : Type) (limit t : Nat) (a : α) (rest : List (Nat × α)),
      (∀ p ∈ rest, p.1 < t + limit) →
      throttleRun limit ((t, a) :: rest) = [(t, a)]) ∧
    throttleRun 50 [(0, 1), (10, 2), (60, 3)] = [(0, 1), (60, 3)] := by
  refine ⟨?_, ?_, ?_, by decide⟩
  · intro α limit calls
    exact throttleGo_sublist limit calls none
  · intro α limit t a rest
    exact ⟨throttleGo limit (some (t + limit)) rest, rfl⟩
  · intro α limit t a rest h
    show (t, a) :: throttleGo limit (some (t + limit)) rest = [(t, a)]
    rw [throttleGo_drop_window limit rest (t + limit) h]

/-- Witness for C4 at a concrete input: with limit 50, calls at t = 0
and t = 5 collapse to the single leading call. -/
theorem throttle_leading_edge_witness :
    throttleRun 50 [(0, 1), (5, 2)] = [(0, 1)] :=
  throttle_leading_edge.2.2.1 Nat 50 0 1 [(5, 2)] (by decide)

/-! ## Icon classifier: `Icons` (utils.js lines 279-395)

The icon constructors are pure template strings parameterised by an
optional styling class (the template splice of `className` with the
empty-string fallback is `className.getD ""`); `Icons.forSignalType`
lowercases the label, with the empty string for an undefined one, and
tests substring containment in source order. -/

/-- ASCII lowercase of one character, the case mapping relevant to the
protocol labels (`toLowerCase` restricted to ASCII). -/
def lowerChar (c : Char) : Char :=
  if 65 ≤ c.toNat ∧ c.toNat ≤ 90 then Char.ofNat (c.toNat + 32) else c

/-- `label.toLowerCase()` on the character list. -/
def toLowerL (l : List Char) : List Char := l.map lowerChar

/-- Does the second list start with the first? -/
def beginsWith : List Char → List Char → Bool
  | [], _ => true
  | _ :: _, [] => false
  | c :: cr, d :: dr => (c == d) && beginsWith cr dr

/-- `s.includes(sub)`: does `sub` occur contiguously inside `s`? -/
def containsL : List Char → List Char → Bool
  | sub, [] => sub.isEmpty
  | sub, d :: dr => beginsWith sub (d :: dr) || containsL sub dr

/-- `s.includes(sub)` on strings, lowercased label against a keyword. -/
def containsStr (s sub : String) : Bool := containsL sub.toList s.toList

/-- Embedding of `Icons.wifi` (utils.js lines 283-291). -/
def Icons.wifi (className : Option String) : String :=
  "<span class=\"icon icon-wifi " ++ className.getD "" ++
    "\" aria-label=\"WiFi\">\n            <svg viewBox=\"0 0 24 24\" fill=\"none\" stroke=\"currentColor\" stroke-width=\"2\" stroke-linecap=\"round\" stroke-linejoin=\"round\">\n                <path d=\"M5 12.55a11 11 0 0 1 14.08 0\"/>\n                <path d=\"M1.42 9a16 16 0 0 1 21.16 0\"/>\n                <path d=\"M8.53 16.11a6 6 0 0 1 6.95 0\"/>\n                <circle cx=\"12\" cy=\"20\" r=\"1\" fill=\"currentColor\" stroke=\"none\"/>\n            </svg>\n        </span>"

/-- Embedding of `Icons.bluetooth` (utils.js lines 297-303). -/
def Icons.bluetooth (className : Option String) : String :=
  "<span class=\"icon icon-bluetooth " ++ className.getD "" ++
    "\" aria-label=\"Bluetooth\">\n            <svg viewBox=\"0 0 24 24\" fill=\"none\" stroke=\"currentColor\" stroke-width=\"2\" stroke-linecap=\"round\" stroke-linejoin=\"round\">\n                <polyline points=\"6.5 6.5 17.5 17.5 12 22 12 2 17.5 6.5 6.5 17.5\"/>\n            </svg>\n        </span>"

/-- Embedding of `Icons.cellular` (utils.js lines 308-317). -/
def Icons.cellular (className : Option String) : String :=
  "<span class=\"icon icon-cellular " ++ className.getD "" ++
    "\" aria-label=\"Cellular\">\n            <svg viewBox=\"0 0 24 24\" fill=\"currentColor\">\n                <rect x=\"2\" y=\"16\" width=\"4\" height=\"6\" rx=\"1\"/>\n                <rect x=\"8\" y=\"12\" width=\"4\" height=\"10\" rx=\"1\"/>\n                <rect x=\"14\" y=\"8\" width=\"4\" height=\"14\" rx=\"1\"/>\n                <rect x=\"20\" y=\"4\" width=\"4\" height=\"18\" rx=\"1\" opacity=\"0.3\"/>\n            </svg>\n        </span>"

/-- Embedding of `Icons.signalUnknown` (utils.js lines 322-328). -/
def Icons.signalUnknown (className : Option String) : String :=
  "<span class=\"icon icon-signal-unknown " ++ className.getD "" ++
    "\" aria-label=\"Unknown signal\">\n            <svg viewBox=\"0 0 24 24\" fill=\"none\" stroke=\"currentColor\" stroke-width=\"2\" stroke-linecap=\"round\">\n                <path d=\"M2 12c0-3 2-6 5-6s4 3 5 6c1 3 2 6 5 6s5-3 5-6\"/>\n            </svg>\n        </span>"

/-- Embedding of `Icons.forSignalType` (utils.js lines 382-394):
lowercase the label (undefined becomes the empty string) and test
keyword containment in source order, WiFi, Bluetooth, Cellular, with the
unknown icon as fallback. -/
def Icons.forSignalType (type className : Option String) : String :=
  let t := String.mk (toLowerL (type.getD "").toList)
  if containsStr t "wifi" || containsStr t "802.11" then
    Icons.wifi className
  else if containsStr t "bluetooth" || containsStr t "bt" ||
      containsStr t "ble" then
    Icons.bluetooth className
  else if containsStr t "cellular" || containsStr t "lte" ||
      containsStr t "gsm" || containsStr t "5g" then
    Icons.cellular className
  else Icons.signalUnknown className

/-- The four protocol categories of the classification. -/
inductive Category where
  | wifi
  | bluetooth
  | cellular
  | unknown
deriving DecidableEq

/-- WiFi keyword set, from the specification. -/
def wifiKeywords : List String := ["wifi", "802.11"]

/-- Bluetooth keyword set, from the specification. -/
def bluetoothKeywords : List String := ["bluetooth", "bt", "ble"]

/-- Cellular keyword set, from the specification. -/
def cellularKeywords : List String := ["cellular", "lte", "gsm", "5g"]

/-- The classification the claim describes, written from its words:
lowercase the label and return the first category, in the order WiFi,
Bluetooth, Cellular, whose keyword set has a member contained in the
label, with Unknown as fallback (also for an empty or undefined
label). -/
def classifyProtocol (label : Option String) : Category :=
  let t := String.mk (toLowerL (label.getD "").toList)
  if wifiKeywords.any (fun k => containsStr t k) then Category.wifi
  else if bluetoothKeywords.any (fun k => containsStr t k) then
    Category.bluetooth
  else if cellularKeywords.any (fun k => containsStr t k) then
    Category.cellular
  else Category.unknown

/-- The icon each category resolves to. -/
def iconForCategory : Category → Option String → String
  | Category.wifi, c => Icons.wifi c
  | Category.bluetooth, c => Icons.bluetooth c
  | Category.cellular, c => Icons.cellular c
  | Category.unknown, c => Icons.signalUnknown c

/-- C2: `Icons.forSignalType` is exactly the keyword-table classifier of
the specification followed by icon lookup: lowercase the label, test the
keyword sets in the order WiFi, Bluetooth, Cellular, first match wins,
Unknown otherwise (including the empty and the undefined label); a label
matching two keyword sets resolves to the earlier-tested category. -/
theorem forSignalType_classifies :
    (∀ type className : Option String,
      Icons.forSignalType type className =
        iconForCategory (classifyProtocol type) className) ∧
    classifyProtocol (some "802.11ac") = Category.wifi ∧
    classifyProtocol (some "BLE") = Category.bluetooth ∧
    classifyProtocol (some "") = Category.unknown ∧
    classifyProtocol none = Category.unknown ∧
    classifyProtocol (some "wifi bt") = Category.wifi := by
  refine ⟨?_, by decide, by decide, by decide, by decide, by decide⟩
  intro type className
  simp only [Icons.forSignalType, classifyProtocol, wifiKeywords,
    bluetoothKeywords, cellularKeywords, List.any_cons, List.any_nil,
    Bool.or_false, Bool.or_assoc]
  split_ifs <;> rfl

/-! ## Persistence adapter: `getStorageItem` / `setStorageItem`
(utils.js lines 174-195)

`localStorage` is an explicit string-keyed store of strings.  JavaScript
values are modelled by the inductive `JVal`; numbers are restricted to
integers (floating point is out of scope of the embedding).  The
builtins `JSON.stringify` and `JSON.parse` are modelled by `jEncode` and
`parseVal`/`jsonParse` below.  Parser restrictions relative to the host
builtin: fractional and exponent number forms and leading-zero numbers
are rejected (integers are the only numbers represented), and
insignificant whitespace inside composite values is not modelled; none
of the storage claims involves those forms, and the encoder never
produces them. -/

/-- A JavaScript value as it can reach the storage helpers. -/
inductive JVal where
  | null
  | bool (b : Bool)
  | num (n : Int)
  | str (s : List Char)
  | arr (elems : List JVal)
  | obj (fields : List (List Char × JVal))

/-- The backslash character (codepoint 92). -/
def bslash : Char := Char.ofNat 92

/-- The opening curly brace (codepoint 123). -/
def lbrace : Char := Char.ofNat 123

/-- The closing curly brace (codepoint 125). -/
def rbrace : Char := Char.ofNat 125

/-- The decimal digit character for a value below ten. -/
def digitChar (n : Nat) : Char := Char.ofNat (48 + n)

/-- Lowercase hexadecimal digit character for a value below sixteen. -/
def hexDigitChar (n : Nat) : Char :=
  if n < 10 then Char.ofNat (48 + n) else Char.ofNat (87 + n)

/-- Decimal digit list of a natural number, most significant first. -/
def natDigits (n : Nat) : List Char :=
  if h : n < 10 then [digitChar n]
  else natDigits (n / 10) ++ [digitChar (n % 10)]
termination_by n
decreasing_by
  simp_wf
  exact Nat.div_lt_self (by omega) (by omega)

/-- Decimal rendering of an integer, the number-to-text form shared by
`JSON.stringify` and `String(value)` on integral numbers. -/
def encInt (n : Int) : List Char :=
  if n < 0 then '-' :: natDigits n.natAbs else natDigits n.toNat

/-- How `JSON.stringify` escapes one character inside a string literal:
quote and backslash get a backslash, the five named control escapes are
used where they exist, any other control character becomes a
backslash-u escape with lowercase hex, and everything else stands for
itself. -/
def escapeJChar (c : Char) : List Char :=
  if c = quoteC then [bslash, quoteC]
  else if c = bslash then [bslash, bslash]
  else if c = Char.ofNat 8 then [bslash, 'b']
  else if c = Char.ofNat 9 then [bslash, 't']
  else if c = Char.ofNat 10 then [bslash, 'n']
  else if c = Char.ofNat 12 then [bslash, 'f']
  else if c = Char.ofNat 13 then [bslash, 'r']
  else if c.toNat < 32 then
    [bslash, 'u', '0', '0', hexDigitChar (c.toNat / 16),
      hexDigitChar (c.toNat % 16)]
  else [c]

/-- `JSON.stringify` of a string: quoted, characters escaped. -/
def encStr (s : List Char) : List Char :=
  quoteC :: s.flatMap escapeJChar ++ [quoteC]

mutual

/-- Model of `JSON.stringify` on `JVal`. -/
def jEncode : JVal → List Char
  | JVal.null => ['n', 'u', 'l', 'l']
  | JVal.bool true => ['t', 'r', 'u', 'e']
  | JVal.bool false => ['f', 'a', 'l', 's', 'e']
  | JVal.num n => encInt n
  | JVal.str s => encStr s
  | JVal.arr xs => '[' :: jEncodeElems xs ++ [']']
  | JVal.obj fs => lbrace :: jEncodeFields fs ++ [rbrace]

/-- Array elements, comma separated. -/
def jEncodeElems : List JVal → List Char
  | [] => []
  | [x] => jEncode x
  | x :: y :: r => jEncode x ++ ',' :: jEncodeElems (y :: r)

/-- Object fields, quoted key, colon, value, comma separated. -/
def jEncodeFields : List (List Char × JVal) → List Char
  | [] => []
  | [(k, v)] => encStr k ++ ':' :: jEncode v
  | (k, v) :: f2 :: r =>
      encStr k ++ ':' :: jEncode v ++ ',' :: jEncodeFields (f2 :: r)

end

/-- Value of a hexadecimal digit character. -/
def hexVal (c : Char) : Option Nat :=
  if 48 ≤ c.toNat ∧ c.toNat ≤ 57 then some (c.toNat - 48)
  else if 97 ≤ c.toNat ∧ c.toNat ≤ 102 then some (c.toNat - 87)
  else if 65 ≤ c.toNat ∧ c.toNat ≤ 70 then some (c.toNat - 55)
  else none

/-- Parse the body of a string literal after its opening quote, undoing
the escapes of `escapeJChar`; returns the decoded characters and the
input following the closing quote. -/
def parseStrBody : List Char → Option (List Char × List Char)
  | [] => none
  | c :: cs =>
    if c = quoteC then some ([], cs)
    else if c = bslash then
      match cs with
      | [] => none
      | e :: cs2 =>
        if e = quoteC then
          (parseStrBody cs2).map (fun p => (quoteC :: p.1, p.2))
        else if e = bslash then
          (parseStrBody cs2).map (fun p => (bslash :: p.1, p.2))
        else if e = '/' then
          (parseStrBody cs2).map (fun p => ('/' :: p.1, p.2))
        else if e = 'b' then
          (parseStrBody cs2).map (fun p => (Char.ofNat 8 :: p.1, p.2))
        else if e = 't' then
          (parseStrBody cs2).map (fun p => (Char.ofNat 9 :: p.1, p.2))
        else if e = 'n' then
          (parseStrBody cs2).map (fun p => (Char.ofNat 10 :: p.1, p.2))
        else if e = 'f' then
          (parseStrBody cs2).map (fun p => (Char.ofNat 12 :: p.1, p.2))
        else if e = 'r' then
          (parseStrBody cs2).map (fun p => (Char.ofNat 13 :: p.1, p.2))
        else if e = 'u' then
          match cs2 with
          | h1 :: h2 :: h3 :: h4 :: cs6 =>
            match hexVal h1, hexVal h2, hexVal h3, hexVal h4 with
            | some a, some b, some c2, some d =>
                (parseStrBody cs6).map (fun p =>
                  (Char.ofNat (((a * 16 + b) * 16 + c2) * 16 + d) :: p.1, p.2))
            | _, _, _, _ => none
          | _ => none
        else none
    else (parseStrBody cs).map (fun p => (c :: p.1, p.2))

/-- Parse a nonempty leading digit run as a natural number, rejecting
leading zeros and a following fraction or exponent marker (numbers other
than integers are not represented). -/
def parseDigitsNum (l : List Char) : Option (Nat × List Char) :=
  match l.takeWhile Char.isDigit with
  | [] => none
  | d :: ds =>
      if d = '0' ∧ ds ≠ [] then none
      else
        match l.dropWhile Char.isDigit with
        | c :: cr =>
            if c = '.' ∨ c = 'e' ∨ c = 'E' then none
            else some (digitsToNat (d :: ds), c :: cr)
        | [] => some (digitsToNat (d :: ds), [])

/-- Parse a JSON number (restricted to integers). -/
def parseNum (l : List Char) : Option (JVal × List Char) :=
  match l with
  | [] => none
  | c :: cs =>
      if c = '-' then
        (parseDigitsNum cs).map (fun p => (JVal.num (-(p.1 : Int)), p.2))
      else
        (parseDigitsNum (c :: cs)).map (fun p => (JVal.num (p.1 : Int), p.2))

mutual

/-- Fuel-indexed model of the `JSON.parse` grammar on a character list:
returns the parsed value and the remaining input. -/
def parseVal : Nat → List Char → Option (JVal × List Char)
  | 0, _ => none
  | _ + 1, [] => none
  | fuel + 1, c :: cs =>
    if c = 'n' then
      match cs with
      | 'u' :: 'l' :: 'l' :: r => some (JVal.null, r)
      | _ => none
    else if c = 't' then
      match cs with
      | 'r' :: 'u' :: 'e' :: r => some (JVal.bool true, r)
      | _ => none
    else if c = 'f' then
      match cs with
      | 'a' :: 'l' :: 's' :: 'e' :: r => some (JVal.bool false, r)
      | _ => none
    else if c = quoteC then
      (parseStrBody cs).map (fun p => (JVal.str p.1, p.2))
    else if c = '[' then
      match cs with
      | [] => none
      | d :: r =>
          if d = ']' then some (JVal.arr [], r)
          else (parseElems fuel (d :: r)).map (fun p => (JVal.arr p.1, p.2))
    else if c = lbrace then
      match cs with
      | [] => none
      | d :: r =>
          if d = rbrace then some (JVal.obj [], r)
          else (parseFields fuel (d :: r)).map (fun p => (JVal.obj p.1, p.2))
    else parseNum (c :: cs)

/-- One or more comma-separated array elements, consuming the closing
bracket. -/
def parseElems : Nat → List Char → Option (List JVal × List Char)
  | 0, _ => none
  | fuel + 1, l =>
    (parseVal fuel l).bind fun p =>
      match p.2 with
      | ',' :: r2 =>
          (parseElems fuel r2).bind fun q => some (p.1 :: q.1, q.2)
      | ']' :: r2 => some ([p.1], r2)
      | _ => none

/-- One or more comma-separated object fields, consuming the closing
brace. -/
def parseFields :
    Nat → List Char → Option (List (List Char × JVal) × List Char)
  | 0, _ => none
  | fuel + 1, l =>
    match l with
    | [] => none
    | c :: cs =>
      if c = quoteC then
        (parseStrBody cs).bind fun kp =>
          match kp.2 with
          | ':' :: r2 =>
              (parseVal fuel r2).bind fun vp =>
                match vp.2 with
                | [] => none
                | d :: r3 =>
                    if d = ',' then
                      (parseFields fuel r3).bind fun q =>
                        some ((kp.1, vp.1) :: q.1, q.2)
                    else if d = rbrace then some ([(kp.1, vp.1)], r3)
                    else none
          | _ => none
      else none

end

/-- Model of `JSON.parse`: run the value parser with enough fuel and
require the whole input to be consumed; `none` models a thrown
`SyntaxError`. -/
def jsonParse (s : String) : Option JVal :=
  match parseVal (2 * s.toList.length + 1) s.toList with
  | some (v, []) => some v
  | _ => none

/-- The key-value persistence backend: `localStorage` maps string keys
to string values. -/
def Store : Type := String → Option String

/-- A store with no keys set. -/
def emptyStore : Store := fun _ => none

/-- `localStorage.setItem`. -/
def storeSet (st : Store) (key val : String) : Store :=
  fun k => if k = key then some val else st k

/-- Embedding of `getStorageItem` (utils.js lines 174-182): an absent
key returns the default; a present key is parsed as JSON, and if parsing
throws the raw stored string is returned unchanged. -/
def getStorageItem (st : Store) (key : String) (defaultValue : JVal) :
    JVal :=
  match st key with
  | none => defaultValue
  | some saved =>
      match jsonParse saved with
      | some v => v
      | none => JVal.str saved.toList

/-- The `typeof value` test of the source: true exactly for `null`,
arrays and objects among the values modelled. -/
def jsTypeofObject : JVal → Bool
  | JVal.null => true
  | JVal.arr _ => true
  | JVal.obj _ => true
  | _ => false

/-- Embedding of `setStorageItem` (utils.js lines 189-195): values whose
`typeof` is object (the last arm: `null`, arrays, objects) are stored
JSON-encoded, the primitives are stored in their native string form
(`String(value)`). -/
def setStorageItem (st : Store) (key : String) (value : JVal) : Store :=
  match value with
  | JVal.bool b => storeSet st key (if b then "true" else "false")
  | JVal.num n => storeSet st key (String.mk (encInt n))
  | JVal.str s => storeSet st key (String.mk s)
  | v => storeSet st key (String.mk (jEncode v))

/-! ### Round-trip of the JSON model

The lemmas below show that `parseVal` run on `jEncode v` recovers `v`
exactly, which is what the storage round-trip claims rest on. -/

theorem digitChar_isDigit {m : Nat} (h : m < 10) :
    (digitChar m).isDigit = true := by
  interval_cases m <;> decide

theorem digitChar_toNat {m : Nat} (h : m < 10) :
    (digitChar m).toNat - 48 = m := by
  interval_cases m <;> decide

theorem digitChar_ne_zero {m : Nat} (h1 : 1 ≤ m) (h2 : m < 10) :
    digitChar m ≠ '0' := by
  interval_cases m <;> decide

theorem isDigit_ne_special {c : Char} (h : c.isDigit = true) :
    c ≠ '-' ∧ c ≠ ']' ∧ c ≠ 'n' ∧ c ≠ 't' ∧ c ≠ 'f' ∧ c ≠ quoteC ∧
    c ≠ '[' ∧ c ≠ lbrace ∧ c ≠ '.' ∧ c ≠ 'e' ∧ c ≠ 'E' ∧ c ≠ ',' := by
  refine ⟨?_, ?_, ?_, ?_, ?_, ?_, ?_, ?_, ?_, ?_, ?_, ?_⟩ <;>
    (intro he; subst he; revert h; decide)

theorem natDigits_lt10 {n : Nat} (h : n < 10) :
    natDigits n = [digitChar n] := by
  unfold natDigits
  rw [dif_pos h]

theorem natDigits_ge10 {n : Nat} (h : ¬ n < 10) :
    natDigits n = natDigits (n / 10) ++ [digitChar (n % 10)] := by
  conv_lhs => rw [natDigits]
  rw [dif_neg h]

theorem natDigits_ne_nil (n : Nat) : natDigits n ≠ [] := by
  by_cases h : n < 10
  · rw [natDigits_lt10 h]; simp
  · rw [natDigits_ge10 h]; simp

theorem natDigits_all_digit :
    ∀ n : Nat, ∀ c ∈ natDigits n, c.isDigit = true := by
  intro n
  induction n using Nat.strong_induction_on with
  | _ n ih =>
      intro c hc
      by_cases h : n < 10
      · rw [natDigits_lt10 h] at hc
        simp at hc
        subst hc
        exact digitChar_isDigit h
      · rw [natDigits_ge10 h] at hc
        rcases List.mem_append.mp hc with h1 | h2
        · exact ih (n / 10) (Nat.div_lt_self (by omega) (by omega)) c h1
        · simp at h2
          subst h2
          exact digitChar_isDigit (Nat.mod_lt _ (by omega))

theorem digitsToNat_append_digit (l : List Char) (c : Char) :
    digitsToNat (l ++ [c]) = digitsToNat l * 10 + (c.toNat - 48) := by
  unfold digitsToNat
  rw [List.foldl_append]
  rfl

theorem digitsToNat_natDigits : ∀ n : Nat, digitsToNat (natDigits n) = n := by
  intro n
  induction n using Nat.strong_induction_on with
  | _ n ih =>
      by_cases h : n < 10
      · rw [natDigits_lt10 h]
        show digitsToNat ([] ++ [digitChar n]) = n
        rw [digitsToNat_append_digit]
        have := digitChar_toNat h
        simp [digitsToNat]
        omega
      · rw [natDigits_ge10 h, digitsToNat_append_digit,
          ih (n / 10) (Nat.div_lt_self (by omega) (by omega)),
          digitChar_toNat (Nat.mod_lt _ (by omega))]
        omega

theorem natDigits_head_ne_zero :
    ∀ n : Nat, 1 ≤ n → ∀ d r, natDigits n = d :: r → d ≠ '0' := by
  intro n
  induction n using Nat.strong_induction_on with
  | _ n ih =>
      intro hn d r heq
      by_cases h : n < 10
      · rw [natDigits_lt10 h] at heq
        have hd : d = digitChar n := (List.cons.inj heq).1.symm
        subst hd
        exact digitChar_ne_zero hn h
      · rw [natDigits_ge10 h] at heq
        obtain ⟨d0, r0, h0⟩ : ∃ d0 r0, natDigits (n / 10) = d0 :: r0 := by
          cases hnd : natDigits (n / 10) with
          | nil => exact absurd hnd (natDigits_ne_nil _)
          | cons a b => exact ⟨a, b, rfl⟩
        rw [h0] at heq
        have hd : d = d0 := (List.cons.inj heq).1.symm
        subst hd
        exact ih (n / 10) (Nat.div_lt_self (by omega) (by omega))
          ((Nat.one_le_div_iff (by omega)).mpr (by omega)) d r0 h0

theorem takeWhile_append_all {p : Char → Bool} {l1 : List Char}
    (h : ∀ c ∈ l1, p c = true) (l2 : List Char) :
    (l1 ++ l2).takeWhile p = l1 ++ l2.takeWhile p := by
  induction l1 with
  | nil => simp
  | cons c r ih =>
      simp only [List.cons_append, List.takeWhile_cons,
        h c (List.mem_cons_self c r)]
      simp [ih (fun x hx => h x (List.mem_cons_of_mem _ hx))]

theorem dropWhile_append_all {p : Char → Bool} {l1 : List Char}
    (h : ∀ c ∈ l1, p c = true) (l2 : List Char) :
    (l1 ++ l2).dropWhile p = l2.dropWhile p := by
  induction l1 with
  | nil => simp
  | cons c r ih =>
      simp only [List.cons_append, List.dropWhile_cons,
        h c (List.mem_cons_self c r)]
      simp [ih (fun x hx => h x (List.mem_cons_of_mem _ hx))]

/-- The character (if any) that follows a number in the input must not
extend the number: not a digit and not a fraction or exponent marker. -/
def numStop : List Char → Prop
  | [] => True
  | c :: _ => c.isDigit = false ∧ c ≠ '.' ∧ c ≠ 'e' ∧ c ≠ 'E'

theorem parseDigitsNum_natDigits (n : Nat) (rest : List Char)
    (hrest : numStop rest) :
    parseDigitsNum (natDigits n ++ rest) = some (n, rest) := by
  have hall := natDigits_all_digit n
  have hrtake : rest.takeWhile Char.isDigit = [] := by
    cases rest with
    | nil => rfl
    | cons c cr =>
        obtain ⟨h1, _, _, _⟩ := hrest
        simp [List.takeWhile_cons, h1]
  have hrdrop : rest.dropWhile Char.isDigit = rest := by
    cases rest with
    | nil => rfl
    | cons c cr =>
        obtain ⟨h1, _, _, _⟩ := hrest
        simp [List.dropWhile_cons, h1]
  have htake : (natDigits n ++ rest).takeWhile Char.isDigit = natDigits n := by
    rw [takeWhile_append_all hall, hrtake, List.append_nil]
  have hdrop : (natDigits n ++ rest).dropWhile Char.isDigit = rest := by
    rw [dropWhile_append_all hall, hrdrop]
  obtain ⟨d, r, hdr⟩ : ∃ d r, natDigits n = d :: r := by
    cases hnd : natDigits n with
    | nil => exact absurd hnd (natDigits_ne_nil _)
    | cons a b => exact ⟨a, b, rfl⟩
  have hnolead : ¬ (d = '0' ∧ r ≠ []) := by
    by_cases hn10 : n < 10
    · rintro ⟨_, hr⟩
      rw [natDigits_lt10 hn10] at hdr
      exact hr (List.cons.inj hdr).2.symm
    · rintro ⟨hd0, _⟩
      exact natDigits_head_ne_zero n (by omega) d r hdr hd0
  unfold parseDigitsNum
  rw [htake, hdrop, hdr]
  simp only [if_neg hnolead]
  have hval : digitsToNat (d :: r) = n := by
    rw [← hdr, digitsToNat_natDigits]
  cases rest with
  | nil =>
      show some (digitsToNat (d :: r), ([] : List Char)) = some (n, [])
      rw [hval]
  | cons c cr =>
      obtain ⟨_, h2, h3, h4⟩ := hrest
      show (if c = '.' ∨ c = 'e' ∨ c = 'E' then none
        else some (digitsToNat (d :: r), c :: cr)) = some (n, c :: cr)
      rw [if_neg (by tauto), hval]

theorem parseNum_encInt (n : Int) (rest : List Char) (hrest : numStop rest) :
    parseNum (encInt n ++ rest) = some (JVal.num n, rest) := by
  unfold encInt
  by_cases hn : n < 0
  · rw [if_pos hn]
    show Option.map (fun p => (JVal.num (-(p.1 : Int)), p.2))
        (parseDigitsNum (natDigits n.natAbs ++ rest)) = some (JVal.num n, rest)
    rw [parseDigitsNum_natDigits n.natAbs rest hrest]
    show some (JVal.num (-(n.natAbs : Int)), rest) = some (JVal.num n, rest)
    rw [show (-(n.natAbs : Int)) = n from by omega]
  · rw [if_neg hn]
    obtain ⟨d, r, hdr⟩ : ∃ d r, natDigits n.toNat = d :: r := by
      cases hnd : natDigits n.toNat with
      | nil => exact absurd hnd (natDigits_ne_nil _)
      | cons a b => exact ⟨a, b, rfl⟩
    have hd : d.isDigit = true :=
      natDigits_all_digit n.toNat d (by rw [hdr]; exact List.mem_cons_self d r)
    rw [hdr]
    simp only [List.cons_append]
    show (if d = '-' then
        Option.map (fun p => (JVal.num (-(p.1 : Int)), p.2))
          (parseDigitsNum (r ++ rest))
      else
        Option.map (fun p => (JVal.num ((p.1 : Nat) : Int), p.2))
          (parseDigitsNum (d :: (r ++ rest)))) = some (JVal.num n, rest)
    rw [if_neg (isDigit_ne_special hd).1,
      show d :: (r ++ rest) = (d :: r) ++ rest from rfl, ← hdr,
      parseDigitsNum_natDigits n.toNat rest hrest]
    show some (JVal.num ((n.toNat : Int)), rest) = some (JVal.num n, rest)
    rw [show ((n.toNat : Int)) = n from by omega]

theorem hexVal_hexDigitChar : ∀ m < 16, hexVal (hexDigitChar m) = some m := by
  decide

theorem parseStrBody_bq (tail : List Char) :
    parseStrBody (bslash :: quoteC :: tail) =
      (parseStrBody tail).map (fun p => (quoteC :: p.1, p.2)) := by
  conv_lhs => rw [parseStrBody.eq_def]
  simp only [
    if_neg (show ¬ (bslash = quoteC) from by decide),
    if_pos (rfl : bslash = bslash),
    if_pos (rfl : (quoteC : Char) = quoteC)]
  simp

theorem parseStrBody_bb (tail : List Char) :
    parseStrBody (bslash :: bslash :: tail) =
      (parseStrBody tail).map (fun p => (bslash :: p.1, p.2)) := by
  conv_lhs => rw [parseStrBody.eq_def]
  simp only [
    if_neg (show ¬ (bslash = quoteC) from by decide),
    if_pos (rfl : bslash = bslash),
    if_neg (show ¬ ((bslash : Char) = quoteC) from by decide),
    if_pos (rfl : (bslash : Char) = bslash)]
  simp

theorem parseStrBody_b8 (tail : List Char) :
    parseStrBody (bslash :: 'b' :: tail) =
      (parseStrBody tail).map (fun p => (Char.ofNat 8 :: p.1, p.2)) := by
  conv_lhs => rw [parseStrBody.eq_def]
  simp only [
    if_neg (show ¬ (bslash = quoteC) from by decide),
    if_pos (rfl : bslash = bslash),
    if_neg (show ¬ (('b' : Char) = quoteC) from by decide),
    if_neg (show ¬ (('b' : Char) = bslash) from by decide),
    if_neg (show ¬ (('b' : Char) = '/') from by decide),
    if_pos (rfl : ('b' : Char) = 'b')]
  simp

theorem parseStrBody_b9 (tail : List Char) :
    parseStrBody (bslash :: 't' :: tail) =
      (parseStrBody tail).map (fun p => (Char.ofNat 9 :: p.1, p.2)) := by
  conv_lhs => rw [parseStrBody.eq_def]
  simp only [
    if_neg (show ¬ (bslash = quoteC) from by decide),
    if_pos (rfl : bslash = bslash),
    if_neg (show ¬ (('t' : Char) = quoteC) from by decide),
    if_neg (show ¬ (('t' : Char) = bslash) from by decide),
    if_neg (show ¬ (('t' : Char) = '/') from by decide),
    if_neg (show ¬ (('t' : Char) = 'b') from by decide),
    if_pos (rfl : ('t' : Char) = 't')]
  simp

theorem parseStrBody_b10 (tail : List Char) :
    parseStrBody (bslash :: 'n' :: tail) =
      (parseStrBody tail).map (fun p => (Char.ofNat 10 :: p.1, p.2)) := by
  conv_lhs => rw [parseStrBody.eq_def]
  simp only [
    if_neg (show ¬ (bslash = quoteC) from by decide),
    if_pos (rfl : bslash = bslash),
    if_neg (show ¬ (('n' : Char) = quoteC) from by decide),
    if_neg (show ¬ (('n' : Char) = bslash) from by decide),
    if_neg (show ¬ (('n' : Char) = '/') from by decide),
    if_neg (show ¬ (('n' : Char) = 'b') from by decide),
    if_neg (show ¬ (('n' : Char) = 't') from by decide),
    if_pos (rfl : ('n' : Char) = 'n')]
  simp

theorem parseStrBody_b12 (tail : List Char) :
    parseStrBody (bslash :: 'f' :: tail) =
      (parseStrBody tail).map (fun p => (Char.ofNat 12 :: p.1, p.2)) := by
  conv_lhs => rw [parseStrBody.eq_def]
  simp only [
    if_neg (show ¬ (bslash = quoteC) from by decide),
    if_pos (rfl : bslash = bslash),
    if_neg (show ¬ (('f' : Char) = quoteC) from by decide),
    if_neg (show ¬ (('f' : Char) = bslash) from by decide),
    if_neg (show ¬ (('f' : Char) = '/') from by decide),
    if_neg (show ¬ (('f' : Char) = 'b') from by decide),
    if_neg (show ¬ (('f' : Char) = 't') from by decide),
    if_neg (show ¬ (('f' : Char) = 'n') from by decide),
    if_pos (rfl : ('f' : Char) = 'f')]
  simp

theorem parseStrBody_b13 (tail : List Char) :
    parseStrBody (bslash :: 'r' :: tail) =
      (parseStrBody tail).map (fun p => (Char.ofNat 13 :: p.1, p.2)) := by
  conv_lhs => rw [parseStrBody.eq_def]
  simp only [
    if_neg (show ¬ (bslash = quoteC) from by decide),
    if_pos (rfl : bslash = bslash),
    if_neg (show ¬ (('r' : Char) = quoteC) from by decide),
    if_neg (show ¬ (('r' : Char) = bslash) from by decide),
    if_neg (show ¬ (('r' : Char) = '/') from by decide),
    if_neg (show ¬ (('r' : Char) = 'b') from by decide),
    if_neg (show ¬ (('r' : Char) = 't') from by decide),
    if_neg (show ¬ (('r' : Char) = 'n') from by decide),
    if_neg (show ¬ (('r' : Char) = 'f') from by decide),
    if_pos (rfl : ('r' : Char) = 'r')]
  simp

theorem parseStrBody_u {x y : Char} {mx my : Nat}
    (hx : hexVal x = some mx) (hy : hexVal y = some my) (tail : List Char) :
    parseStrBody (bslash :: 'u' :: '0' :: '0' :: x :: y :: tail) =
      (parseStrBody tail).map
        (fun p => (Char.ofNat (((0 * 16 + 0) * 16 + mx) * 16 + my) :: p.1,
          p.2)) := by
  conv_lhs => rw [parseStrBody.eq_def]
  simp only [
    if_neg (show ¬ (bslash = quoteC) from by decide),
    if_pos (rfl : bslash = bslash),
    if_neg (show ¬ (('u' : Char) = quoteC) from by decide),
    if_neg (show ¬ (('u' : Char) = bslash) from by decide),
    if_neg (show ¬ (('u' : Char) = '/') from by decide),
    if_neg (show ¬ (('u' : Char) = 'b') from by decide),
    if_neg (show ¬ (('u' : Char) = 't') from by decide),
    if_neg (show ¬ (('u' : Char) = 'n') from by decide),
    if_neg (show ¬ (('u' : Char) = 'f') from by decide),
    if_neg (show ¬ (('u' : Char) = 'r') from by decide),
    if_pos (rfl : ('u' : Char) = 'u')]
  rw [show hexVal '0' = some 0 from by decide, hx, hy]
  simp

theorem parseStrBody_plain {c : Char} (h1 : c ≠ quoteC) (h2 : c ≠ bslash)
    (tail : List Char) :
    parseStrBody (c :: tail) =
      (parseStrBody tail).map (fun p => (c :: p.1, p.2)) := by
  conv_lhs => rw [parseStrBody.eq_def]
  simp only [if_neg h1, if_neg h2]

theorem parseStrBody_encoded (s : List Char) :
    ∀ rest : List Char,
      parseStrBody (s.flatMap escapeJChar ++ quoteC :: rest) =
        some (s, rest) := by
  induction s with
  | nil =>
      intro rest
      simp only [List.flatMap_nil, List.nil_append]
      conv_lhs => rw [parseStrBody.eq_def]
      simp only [if_pos (rfl : quoteC = quoteC)]
      simp
  | cons c s ih =>
      intro rest
      rw [List.flatMap_cons, List.append_assoc]
      by_cases h1 : c = quoteC
      · subst h1
        rw [show escapeJChar quoteC = [bslash, quoteC] from by decide,
          List.cons_append, List.cons_append, List.nil_append,
          parseStrBody_bq, ih rest]
        rfl
      · by_cases h2 : c = bslash
        · subst h2
          rw [show escapeJChar bslash = [bslash, bslash] from by decide,
            List.cons_append, List.cons_append, List.nil_append,
            parseStrBody_bb, ih rest]
          rfl
        · by_cases h3 : c = Char.ofNat 8
          · subst h3
            rw [show escapeJChar (Char.ofNat 8) = [bslash, 'b'] from by decide,
              List.cons_append, List.cons_append, List.nil_append,
              parseStrBody_b8, ih rest]
            rfl
          · by_cases h4 : c = Char.ofNat 9
            · subst h4
              rw [show escapeJChar (Char.ofNat 9) = [bslash, 't'] from by
                  decide,
                List.cons_append, List.cons_append, List.nil_append,
                parseStrBody_b9, ih rest]
              rfl
            · by_cases h5 : c = Char.ofNat 10
              · subst h5
                rw [show escapeJChar (Char.ofNat 10) = [bslash, 'n'] from by
                    decide,
                  List.cons_append, List.cons_append, List.nil_append,
                  parseStrBody_b10, ih rest]
                rfl
              · by_cases h6 : c = Char.ofNat 12
                · subst h6
                  rw [show escapeJChar (Char.ofNat 12) = [bslash, 'f'] from by
                      decide,
                    List.cons_append, List.cons_append, List.nil_append,
                    parseStrBody_b12, ih rest]
                  rfl
                · by_cases h7 : c = Char.ofNat 13
                  · subst h7
                    rw [show escapeJChar (Char.ofNat 13) = [bslash, 'r'] from
                        by decide,
                      List.cons_append, List.cons_append, List.nil_append,
                      parseStrBody_b13, ih rest]
                    rfl
                  · by_cases h8 : c.toNat < 32
                    · rw [show escapeJChar c = bslash :: 'u' :: '0' :: '0' ::
                          hexDigitChar (c.toNat / 16) ::
                          hexDigitChar (c.toNat % 16) :: [] from by
                        unfold escapeJChar
                        rw [if_neg h1, if_neg h2, if_neg h3, if_neg h4,
                          if_neg h5, if_neg h6, if_neg h7, if_pos h8]]
                      simp only [List.cons_append, List.nil_append]
                      rw [parseStrBody_u
                        (hexVal_hexDigitChar (c.toNat / 16) (by omega))
                        (hexVal_hexDigitChar (c.toNat % 16) (by omega)),
                        ih rest]
                      simp only [Option.map_some']
                      rw [show ((0 * 16 + 0) * 16 + c.toNat / 16) * 16 +
                          c.toNat % 16 = c.toNat from by omega,
                        Char.ofNat_toNat]
                    · rw [show escapeJChar c = [c] from by
                        unfold escapeJChar
                        rw [if_neg h1, if_neg h2, if_neg h3, if_neg h4,
                          if_neg h5, if_neg h6, if_neg h7, if_neg h8]]
                      rw [List.cons_append, List.nil_append,
                        parseStrBody_plain h1 h2, ih rest]
                      rfl

mutual

/-- Fuel needed by `parseVal` to parse an encoded value. -/
def jsize : JVal → Nat
  | JVal.arr xs => jsizeElems xs + 1
  | JVal.obj fs => jsizeFields fs + 1
  | _ => 1

/-- Fuel needed by `parseElems` for the encoded elements. -/
def jsizeElems : List JVal → Nat
  | [] => 1
  | x :: r => jsize x + jsizeElems r + 1

/-- Fuel needed by `parseFields` for the encoded fields. -/
def jsizeFields : List (List Char × JVal) → Nat
  | [] => 1
  | (_, v) :: r => jsize v + jsizeFields r + 1

end

theorem jsize_pos (v : JVal) : 1 ≤ jsize v := by
  cases v <;> simp [jsize]

theorem jsizeElems_pos (xs : List JVal) : 1 ≤ jsizeElems xs := by
  cases xs <;> simp [jsizeElems]

theorem jsizeFields_pos (fs : List (List Char × JVal)) :
    1 ≤ jsizeFields fs := by
  cases fs <;> simp [jsizeFields]

theorem numStop_rbracket (rest : List Char) : numStop (']' :: rest) :=
  ⟨by decide, by decide, by decide, by decide⟩

theorem numStop_rbrace (rest : List Char) : numStop (rbrace :: rest) :=
  ⟨by decide, by decide, by decide, by decide⟩

theorem numStop_comma (rest : List Char) : numStop (',' :: rest) :=
  ⟨by decide, by decide, by decide, by decide⟩

theorem jEncode_head (v : JVal) :
    ∃ d r, jEncode v = d :: r ∧ d ≠ ']' := by
  cases v with
  | null => exact ⟨'n', ['u', 'l', 'l'], by simp [jEncode], by decide⟩
  | bool b =>
      cases b with
      | true => exact ⟨'t', ['r', 'u', 'e'], by simp [jEncode], by decide⟩
      | false => exact ⟨'f', ['a', 'l', 's', 'e'], by simp [jEncode], by decide⟩
  | num n =>
      by_cases hn : n < 0
      · exact ⟨'-', natDigits n.natAbs, by simp [jEncode, encInt, if_pos hn],
          by decide⟩
      · obtain ⟨d, r, hdr⟩ : ∃ d r, natDigits n.toNat = d :: r := by
          cases hnd : natDigits n.toNat with
          | nil => exact absurd hnd (natDigits_ne_nil _)
          | cons a b => exact ⟨a, b, rfl⟩
        have hd : d.isDigit = true :=
          natDigits_all_digit n.toNat d
            (by rw [hdr]; exact List.mem_cons_self d r)
        refine ⟨d, r, ?_, (isDigit_ne_special hd).2.1⟩
        simp [jEncode, encInt, if_neg hn, hdr]
  | str s => exact ⟨quoteC, s.flatMap escapeJChar ++ [quoteC],
        by simp [jEncode, encStr], by decide⟩
  | arr xs => exact ⟨'[', jEncodeElems xs ++ [']'], by simp [jEncode], by decide⟩
  | obj fs => exact ⟨lbrace, jEncodeFields fs ++ [rbrace], by simp [jEncode], by decide⟩

theorem jEncodeFields_head (f : List Char × JVal)
    (fs : List (List Char × JVal)) :
    ∃ tail, jEncodeFields (f :: fs) = quoteC :: tail := by
  obtain ⟨k, v⟩ := f
  cases fs with
  | nil =>
      exact ⟨k.flatMap escapeJChar ++ quoteC :: ':' :: jEncode v,
        by simp [jEncodeFields, encStr]⟩
  | cons f2 r =>
      exact ⟨k.flatMap escapeJChar ++ quoteC :: ':' ::
          (jEncode v ++ ',' :: jEncodeFields (f2 :: r)),
        by simp [jEncodeFields, encStr]⟩

theorem parseVal_quote (fuel : Nat) (cs : List Char) :
    parseVal (fuel + 1) (quoteC :: cs) =
      (parseStrBody cs).map (fun p => (JVal.str p.1, p.2)) := by
  simp [parseVal, if_neg (show ¬ (quoteC = 'n') from by decide),
    if_neg (show ¬ (quoteC = 't') from by decide),
    if_neg (show ¬ (quoteC = 'f') from by decide)]

theorem parseVal_number {c : Char} (fuel : Nat) (cs : List Char)
    (h1 : c ≠ 'n') (h2 : c ≠ 't') (h3 : c ≠ 'f') (h4 : c ≠ quoteC)
    (h5 : c ≠ '[') (h6 : c ≠ lbrace) :
    parseVal (fuel + 1) (c :: cs) = parseNum (c :: cs) := by
  simp [parseVal, if_neg h1, if_neg h2, if_neg h3, if_neg h4, if_neg h5,
    if_neg h6]

theorem parseVal_arr_nil (fuel : Nat) (rest : List Char) :
    parseVal (fuel + 1) ('[' :: ']' :: rest) = some (JVal.arr [], rest) := by
  simp [parseVal, if_neg (show ¬ (('[' : Char) = quoteC) from by decide)]

theorem parseVal_arr_cons (fuel : Nat) {d : Char} (r : List Char)
    (hd : d ≠ ']') :
    parseVal (fuel + 1) ('[' :: d :: r) =
      (parseElems fuel (d :: r)).map (fun p => (JVal.arr p.1, p.2)) := by
  simp [parseVal, if_neg (show ¬ (('[' : Char) = quoteC) from by decide),
    if_neg hd]

theorem parseVal_obj_nil (fuel : Nat) (rest : List Char) :
    parseVal (fuel + 1) (lbrace :: rbrace :: rest) =
      some (JVal.obj [], rest) := by
  simp [parseVal,
    if_neg (show ¬ (lbrace = 'n') from by decide),
    if_neg (show ¬ (lbrace = 't') from by decide),
    if_neg (show ¬ (lbrace = 'f') from by decide),
    if_neg (show ¬ (lbrace = quoteC) from by decide),
    if_neg (show ¬ (lbrace = '[') from by decide),
    if_pos (rfl : lbrace = lbrace), if_pos (rfl : rbrace = rbrace)]

theorem parseVal_obj_cons (fuel : Nat) {d : Char} (r : List Char)
    (hd : d ≠ rbrace) :
    parseVal (fuel + 1) (lbrace :: d :: r) =
      (parseFields fuel (d :: r)).map (fun p => (JVal.obj p.1, p.2)) := by
  simp [parseVal,
    if_neg (show ¬ (lbrace = 'n') from by decide),
    if_neg (show ¬ (lbrace = 't') from by decide),
    if_neg (show ¬ (lbrace = 'f') from by decide),
    if_neg (show ¬ (lbrace = quoteC) from by decide),
    if_neg (show ¬ (lbrace = '[') from by decide),
    if_pos (rfl : lbrace = lbrace), if_neg hd]

theorem jEncodeElems_cons_decomp (x : JVal) (xs2 : List JVal) :
    ∃ T, jEncodeElems (x :: xs2) = jEncode x ++ T := by
  cases xs2 with
  | nil => exact ⟨[], by simp [jEncodeElems]⟩
  | cons y ys => exact ⟨',' :: jEncodeElems (y :: ys), by simp [jEncodeElems]⟩

theorem parseVal_jEncode :
    ∀ fuel : Nat,
      (∀ (v : JVal) (rest : List Char), jsize v ≤ fuel → numStop rest →
        parseVal fuel (jEncode v ++ rest) = some (v, rest)) ∧
      (∀ (xs : List JVal) (rest : List Char), jsizeElems xs ≤ fuel →
        xs ≠ [] →
        parseElems fuel (jEncodeElems xs ++ ']' :: rest) = some (xs, rest)) ∧
      (∀ (fs : List (List Char × JVal)) (rest : List Char),
        jsizeFields fs ≤ fuel → fs ≠ [] →
        parseFields fuel (jEncodeFields fs ++ rbrace :: rest) =
          some (fs, rest)) := by
  intro fuel
  induction fuel using Nat.strong_induction_on with
  | _ fuel ih =>
      cases fuel with
      | zero =>
          refine ⟨?_, ?_, ?_⟩
          · intro v rest hsz _
            exact absurd hsz (by have := jsize_pos v; omega)
          · intro xs rest hsz _
            exact absurd hsz (by have := jsizeElems_pos xs; omega)
          · intro fs rest hsz _
            exact absurd hsz (by have := jsizeFields_pos fs; omega)
      | succ fuel =>
          have ihV := (ih fuel (Nat.lt_succ_self fuel)).1
          have ihE := (ih fuel (Nat.lt_succ_self fuel)).2.1
          have ihF := (ih fuel (Nat.lt_succ_self fuel)).2.2
          refine ⟨?_, ?_, ?_⟩
          · intro v rest hsz hrest
            cases v with
            | null =>
                rw [show jEncode JVal.null = ['n', 'u', 'l', 'l'] from by
                  simp [jEncode]]
                simp [parseVal]
            | bool b =>
                cases b with
                | true =>
                    rw [show jEncode (JVal.bool true) = ['t', 'r', 'u', 'e']
                      from by simp [jEncode]]
                    simp [parseVal]
                | false =>
                    rw [show jEncode (JVal.bool false) =
                        ['f', 'a', 'l', 's', 'e'] from by simp [jEncode]]
                    simp [parseVal]
            | num n =>
                rw [show jEncode (JVal.num n) = encInt n from by simp [jEncode]]
                by_cases hn : n < 0
                · have he : encInt n = '-' :: natDigits n.natAbs := by
                    simp [encInt, if_pos hn]
                  rw [he, List.cons_append,
                    parseVal_number fuel _ (by decide) (by decide) (by decide)
                      (by decide) (by decide) (by decide),
                    ← List.cons_append, ← he, parseNum_encInt n rest hrest]
                · have he : encInt n = natDigits n.toNat := by
                    simp [encInt, if_neg hn]
                  obtain ⟨d, r, hdr⟩ : ∃ d r, natDigits n.toNat = d :: r := by
                    cases hnd : natDigits n.toNat with
                    | nil => exact absurd hnd (natDigits_ne_nil _)
                    | cons a b => exact ⟨a, b, rfl⟩
                  have hd : d.isDigit = true :=
                    natDigits_all_digit n.toNat d
                      (by rw [hdr]; exact List.mem_cons_self d r)
                  obtain ⟨_, _, hdn, hdt, hdf, hdq, hdbk, hdbc, _, _, _, _⟩ :=
                    isDigit_ne_special hd
                  rw [he, hdr, List.cons_append,
                    parseVal_number fuel _ hdn hdt hdf hdq hdbk hdbc,
                    ← List.cons_append, ← hdr, ← he,
                    parseNum_encInt n rest hrest]
            | str s =>
                rw [show jEncode (JVal.str s) = encStr s from by simp [jEncode],
                  show encStr s = quoteC :: (s.flatMap escapeJChar ++ [quoteC])
                    from rfl,
                  List.cons_append, parseVal_quote, List.append_assoc,
                  List.singleton_append, parseStrBody_encoded s rest]
                rfl
            | arr xs =>
                cases xs with
                | nil =>
                    rw [show jEncode (JVal.arr []) = ['[', ']'] from by
                      simp [jEncode, jEncodeElems]]
                    rw [show (['[', ']'] : List Char) ++ rest =
                      '[' :: ']' :: rest from rfl]
                    exact parseVal_arr_nil fuel rest
                | cons x xs2 =>
                    have hsz2 : jsizeElems (x :: xs2) ≤ fuel := by
                      have : jsize (JVal.arr (x :: xs2)) =
                          jsizeElems (x :: xs2) + 1 := by simp [jsize]
                      omega
                    have he : jEncode (JVal.arr (x :: xs2)) =
                        '[' :: (jEncodeElems (x :: xs2) ++ [']']) := by
                      simp [jEncode]
                    obtain ⟨T, hT⟩ := jEncodeElems_cons_decomp x xs2
                    obtain ⟨d, dr, hdr, hdne⟩ := jEncode_head x
                    have hshape : jEncodeElems (x :: xs2) ++ ']' :: rest =
                        d :: (dr ++ T ++ ']' :: rest) := by
                      rw [hT, hdr]
                      simp
                    rw [he, List.cons_append, List.append_assoc,
                      List.singleton_append, hshape,
                      parseVal_arr_cons fuel _ hdne, ← hshape,
                      ihE (x :: xs2) rest hsz2 (by simp)]
                    rfl
            | obj fs =>
                cases fs with
                | nil =>
                    rw [show jEncode (JVal.obj []) = [lbrace, rbrace] from by
                      simp [jEncode, jEncodeFields]]
                    rw [show ([lbrace, rbrace] : List Char) ++ rest =
                      lbrace :: rbrace :: rest from rfl]
                    exact parseVal_obj_nil fuel rest
                | cons f fs2 =>
                    have hsz2 : jsizeFields (f :: fs2) ≤ fuel := by
                      have : jsize (JVal.obj (f :: fs2)) =
                          jsizeFields (f :: fs2) + 1 := by simp [jsize]
                      omega
                    have he : jEncode (JVal.obj (f :: fs2)) =
                        lbrace :: (jEncodeFields (f :: fs2) ++ [rbrace]) := by
                      simp [jEncode]
                    obtain ⟨tailF, htF⟩ := jEncodeFields_head f fs2
                    have hshape : jEncodeFields (f :: fs2) ++ rbrace :: rest =
                        quoteC :: (tailF ++ rbrace :: rest) := by
                      rw [htF]
                      simp
                    rw [he, List.cons_append, List.append_assoc,
                      List.singleton_append, hshape,
                      parseVal_obj_cons fuel _ (by decide), ← hshape,
                      ihF (f :: fs2) rest hsz2 (by simp)]
                    rfl
          · intro xs rest hsz hne
            cases xs with
            | nil => exact absurd rfl hne
            | cons x xs2 =>
                have hszx : jsize x ≤ fuel := by
                  have : jsizeElems (x :: xs2) =
                      jsize x + jsizeElems xs2 + 1 := by simp [jsizeElems]
                  omega
                cases xs2 with
                | nil =>
                    have hx := ihV x (']' :: rest) hszx (numStop_rbracket rest)
                    simp only [parseElems]
                    rw [show jEncodeElems [x] = jEncode x from by
                      simp [jEncodeElems]]
                    rw [hx]
                    simp
                | cons y ys =>
                    have hszy : jsizeElems (y :: ys) ≤ fuel := by
                      have h1 : jsizeElems (x :: y :: ys) =
                          jsize x + jsizeElems (y :: ys) + 1 := by
                        simp [jsizeElems]
                      have h2 := jsize_pos x
                      omega
                    have he : jEncodeElems (x :: y :: ys) =
                        jEncode x ++ ',' :: jEncodeElems (y :: ys) := by
                      simp [jEncodeElems]
                    have hx := ihV x (',' :: (jEncodeElems (y :: ys) ++
                      ']' :: rest)) hszx (numStop_comma _)
                    simp only [parseElems]
                    rw [he, List.append_assoc, List.cons_append, hx]
                    simp only [Option.some_bind]
                    rw [ihE (y :: ys) rest hszy (by simp)]
                    simp
          · intro fs rest hsz hne
            cases fs with
            | nil => exact absurd rfl hne
            | cons f fs2 =>
                obtain ⟨k, v⟩ := f
                have hszv : jsize v ≤ fuel := by
                  have : jsizeFields ((k, v) :: fs2) =
                      jsize v + jsizeFields fs2 + 1 := by simp [jsizeFields]
                  omega
                cases fs2 with
                | nil =>
                    have he : jEncodeFields [(k, v)] =
                        encStr k ++ ':' :: jEncode v := by simp [jEncodeFields]
                    have hv := ihV v (rbrace :: rest) hszv (numStop_rbrace rest)
                    simp only [parseFields]
                    rw [he,
                      show encStr k = quoteC ::
                        (k.flatMap escapeJChar ++ [quoteC]) from rfl]
                    simp only [List.cons_append, List.append_assoc,
                      List.singleton_append]
                    simp only [List.nil_append, if_true]
                    rw [parseStrBody_encoded k (':' :: (jEncode v ++
                        rbrace :: rest))]
                    simp only [Option.some_bind]
                    rw [hv]
                    simp [if_neg (show ¬ (rbrace = ',') from by decide)]
                | cons f2 fs3 =>
                    have hszf : jsizeFields (f2 :: fs3) ≤ fuel := by
                      have h1 : jsizeFields ((k, v) :: f2 :: fs3) =
                          jsize v + jsizeFields (f2 :: fs3) + 1 := by
                        simp [jsizeFields]
                      have h2 := jsize_pos v
                      omega
                    have he : jEncodeFields ((k, v) :: f2 :: fs3) =
                        encStr k ++ ':' :: (jEncode v ++
                          ',' :: jEncodeFields (f2 :: fs3)) := by
                      simp [jEncodeFields]
                    have hv := ihV v (',' :: (jEncodeFields (f2 :: fs3) ++
                      rbrace :: rest)) hszv (numStop_comma _)
                    simp only [parseFields]
                    rw [he,
                      show encStr k = quoteC ::
                        (k.flatMap escapeJChar ++ [quoteC]) from rfl]
                    simp only [List.cons_append, List.append_assoc,
                      List.singleton_append]
                    simp only [List.nil_append, if_true]
                    rw [parseStrBody_encoded k _]
                    simp only [Option.some_bind]
                    rw [hv]
                    simp only [Option.some_bind]
                    simp only [if_true]
                    rw [ihF (f2 :: fs3) rest hszf (by simp)]
                    simp

theorem jsize_le_aux :
    ∀ N : Nat,
      (∀ v : JVal, sizeOf v ≤ N →
        jsize v + 1 ≤ 2 * (jEncode v).length) ∧
      (∀ xs : List JVal, sizeOf xs ≤ N →
        jsizeElems xs ≤ 2 * (jEncodeElems xs).length + 1) ∧
      (∀ fs : List (List Char × JVal), sizeOf fs ≤ N →
        jsizeFields fs ≤ 2 * (jEncodeFields fs).length + 1) := by
  intro N
  induction N using Nat.strong_induction_on with
  | _ N ih =>
      refine ⟨?_, ?_, ?_⟩
      · intro v hN
        cases v with
        | null =>
            rw [show jEncode JVal.null = ['n', 'u', 'l', 'l'] from by
              simp [jEncode]]
            simp [jsize]
        | bool b =>
            cases b with
            | true =>
                rw [show jEncode (JVal.bool true) = ['t', 'r', 'u', 'e']
                  from by simp [jEncode]]
                simp [jsize]
            | false =>
                rw [show jEncode (JVal.bool false) = ['f', 'a', 'l', 's', 'e']
                  from by simp [jEncode]]
                simp [jsize]
        | num n =>
            have hlen : 1 ≤ (encInt n).length := by
              unfold encInt
              by_cases hn : n < 0
              · rw [if_pos hn]; simp
              · rw [if_neg hn]
                exact List.length_pos.mpr (natDigits_ne_nil _)
            rw [show jEncode (JVal.num n) = encInt n from by simp [jEncode]]
            simp [jsize]
            omega
        | str s =>
            rw [show jEncode (JVal.str s) = encStr s from by simp [jEncode]]
            have : (encStr s).length = (s.flatMap escapeJChar).length + 2 := by
              simp [encStr]
            simp [jsize]
            omega
        | arr xs =>
            have hszxs : sizeOf xs < N := by
              have hspec : sizeOf (JVal.arr xs) = 1 + sizeOf xs := by
                simp
              omega
            have hE := (ih (sizeOf xs) hszxs).2.1 xs le_rfl
            rw [show jEncode (JVal.arr xs) = '[' :: jEncodeElems xs ++ [']']
              from by simp [jEncode]]
            have : ('[' :: jEncodeElems xs ++ [']']).length =
                (jEncodeElems xs).length + 2 := by simp
            simp only [jsize]
            omega
        | obj fs =>
            have hszfs : sizeOf fs < N := by
              have hspec : sizeOf (JVal.obj fs) = 1 + sizeOf fs := by
                simp
              omega
            have hF := (ih (sizeOf fs) hszfs).2.2 fs le_rfl
            rw [show jEncode (JVal.obj fs) =
              lbrace :: jEncodeFields fs ++ [rbrace] from by simp [jEncode]]
            have : (lbrace :: jEncodeFields fs ++ [rbrace]).length =
                (jEncodeFields fs).length + 2 := by simp
            simp only [jsize]
            omega
      · intro xs hN
        cases xs with
        | nil => simp [jsizeElems, jEncodeElems]
        | cons x r =>
            have hszx : sizeOf x < N := by
              have hspec : sizeOf (x :: r) = 1 + sizeOf x + sizeOf r := by
                simp
              have : 0 < sizeOf r := by
                cases r <;> simp <;> omega
              omega
            have hszr : sizeOf r < N := by
              have hspec : sizeOf (x :: r) = 1 + sizeOf x + sizeOf r := by
                simp
              have : 0 < sizeOf x := by cases x <;> simp <;> omega
              omega
            have hx := (ih (sizeOf x) hszx).1 x le_rfl
            have hr := (ih (sizeOf r) hszr).2.1 r le_rfl
            cases r with
            | nil =>
                rw [show jEncodeElems [x] = jEncode x from by
                  simp [jEncodeElems]]
                simp only [jsizeElems]
                omega
            | cons y ys =>
                rw [show jEncodeElems (x :: y :: ys) =
                  jEncode x ++ ',' :: jEncodeElems (y :: ys) from by
                    simp [jEncodeElems]]
                have : (jEncode x ++ ',' :: jEncodeElems (y :: ys)).length =
                    (jEncode x).length + (jEncodeElems (y :: ys)).length + 1 :=
                  by simp; omega
                simp only [jsizeElems] at hr ⊢
                omega
      · intro fs hN
        cases fs with
        | nil => simp [jsizeFields, jEncodeFields]
        | cons f r =>
            obtain ⟨k, v⟩ := f
            have hszv : sizeOf v < N := by
              have hspec : sizeOf ((k, v) :: r) =
                  1 + (1 + sizeOf k + sizeOf v) + sizeOf r := by simp
              have h1 : 0 < sizeOf r := by cases r <;> simp <;> omega
              omega
            have hszr : sizeOf r < N := by
              have hspec : sizeOf ((k, v) :: r) =
                  1 + (1 + sizeOf k + sizeOf v) + sizeOf r := by simp
              have h1 : 0 < sizeOf v := by cases v <;> simp <;> omega
              omega
            have hv := (ih (sizeOf v) hszv).1 v le_rfl
            have hr := (ih (sizeOf r) hszr).2.2 r le_rfl
            have hklen : 2 ≤ (encStr k).length := by
              simp [encStr]
            cases r with
            | nil =>
                rw [show jEncodeFields [(k, v)] =
                  encStr k ++ ':' :: jEncode v from by simp [jEncodeFields]]
                have : (encStr k ++ ':' :: jEncode v).length =
                    (encStr k).length + (jEncode v).length + 1 := by
                  simp; omega
                simp only [jsizeFields]
                omega
            | cons f2 r2 =>
                rw [show jEncodeFields ((k, v) :: f2 :: r2) =
                  encStr k ++ ':' :: (jEncode v ++
                    ',' :: jEncodeFields (f2 :: r2)) from by
                      simp [jEncodeFields]]
                have : (encStr k ++ ':' :: (jEncode v ++
                    ',' :: jEncodeFields (f2 :: r2))).length =
                    (encStr k).length + (jEncode v).length +
                      (jEncodeFields (f2 :: r2)).length + 2 := by
                  simp; omega
                simp only [jsizeFields] at hr ⊢
                omega

theorem jsonParse_jEncode (v : JVal) :
    jsonParse (String.mk (jEncode v)) = some v := by
  unfold jsonParse
  have hb := (jsize_le_aux (sizeOf v)).1 v le_rfl
  have hfuel : jsize v ≤ 2 * (jEncode v).length + 1 := by omega
  have h := (parseVal_jEncode (2 * (jEncode v).length + 1)).1 v [] hfuel
    trivial
  rw [List.append_nil] at h
  rw [show (String.mk (jEncode v)).toList = jEncode v from rfl, h]

theorem getStorageItem_store_decode {st : Store} {key : String}
    {saved : String} {d w : JVal}
    (hst : st key = some saved) (hw : jsonParse saved = some w) :
    getStorageItem st key d = w := by
  unfold getStorageItem
  rw [hst]
  simp [hw]

/-- C8: for every key and every value of object type (`null`, arrays,
objects — the values `setStorageItem` serialises as JSON),
`getStorageItem` after `setStorageItem` returns a structurally equal
value; and for an absent key `getStorageItem` returns the supplied
default. -/
theorem storage_roundtrip :
    (∀ (st : Store) (key : String) (v d : JVal),
      jsTypeofObject v = true →
      getStorageItem (setStorageItem st key v) key d = v) ∧
    (∀ (st : Store) (key : String) (d : JVal),
      st key = none → getStorageItem st key d = d) := by
  constructor
  · intro st key v d hv
    cases v with
    | bool b => simp [jsTypeofObject] at hv
    | num n => simp [jsTypeofObject] at hv
    | str s => simp [jsTypeofObject] at hv
    | null =>
        exact getStorageItem_store_decode
          (by simp [setStorageItem, storeSet]) (jsonParse_jEncode JVal.null)
    | arr xs =>
        exact getStorageItem_store_decode
          (by simp [setStorageItem, storeSet])
          (jsonParse_jEncode (JVal.arr xs))
    | obj fs =>
        exact getStorageItem_store_decode
          (by simp [setStorageItem, storeSet])
          (jsonParse_jEncode (JVal.obj fs))
  · intro st key d h
    unfold getStorageItem
    rw [h]

/-- Witness for C8 at concrete inputs: a one-field object survives the
store/get round trip, and a missing key falls back to the default. -/
theorem storage_roundtrip_witness :
    getStorageItem (setStorageItem emptyStore "k"
        (JVal.obj [(String.toList "a", JVal.num 1)])) "k" JVal.null =
      JVal.obj [(String.toList "a", JVal.num 1)] ∧
    getStorageItem emptyStore "missing" (JVal.num 7) = JVal.num 7 :=
  ⟨storage_roundtrip.1 emptyStore "k"
      (JVal.obj [(String.toList "a", JVal.num 1)]) JVal.null rfl,
    storage_roundtrip.2 emptyStore "missing" (JVal.num 7) rfl⟩

/-- C10: storing a primitive string whose text is itself valid JSON and
reading it back yields the JSON-decoded value, not the original string:
the string is stored raw (primitives are not JSON-encoded) and the read
path parses it; in particular the round trip is not the identity on the
string `"123"`. -/
theorem storage_string_not_identity :
    (∀ (st : Store) (key : String) (s : String) (d w : JVal),
      jsonParse s = some w →
      getStorageItem (setStorageItem st key (JVal.str s.toList)) key d = w) ∧
    getStorageItem (setStorageItem emptyStore "k"
        (JVal.str (String.toList "123"))) "k" JVal.null = JVal.num 123 ∧
    JVal.num 123 ≠ JVal.str (String.toList "123") := by
  refine ⟨?_, ?_, ?_⟩
  · intro st key s d w hw
    have hset : (setStorageItem st key (JVal.str s.toList)) key =
        some (String.mk s.toList) := by
      simp [setStorageItem, storeSet]
    exact getStorageItem_store_decode hset hw
  · rfl
  · exact fun h => JVal.noConfusion h

/-- Witness for C10 at a concrete input: the stored string `"true"`
decodes to the boolean, not back to the string. -/
theorem storage_string_not_identity_witness :
    getStorageItem (setStorageItem emptyStore "w"
        (JVal.str (String.toList "true"))) "w" JVal.null =
      JVal.bool true :=
  storage_string_not_identity.1 emptyStore "w" "true" JVal.null
    (JVal.bool true) rfl

theorem parseFloatQ_no_digits {l : List Char}
    (h : ∀ c ∈ l, c.isDigit = false) : parseFloatQ l = none := by
  cases l with
  | nil => rfl
  | cons c r =>
      by_cases h1 : c = '-'
      · subst h1
        show (parseUnsignedQ r).map (fun q => -q) = none
        rw [parseUnsignedQ_no_digits
          (fun x hx => h x (List.mem_cons_of_mem _ hx))]
        rfl
      · by_cases h2 : c = '+'
        · subst h2
          show parseUnsignedQ r = none
          exact parseUnsignedQ_no_digits
            (fun x hx => h x (List.mem_cons_of_mem _ hx))
        · rw [parseFloatQ.eq_def]
          split
          · next heq => exact absurd (List.cons.inj heq).1 h1
          · next heq => exact absurd (List.cons.inj heq).1 h2
          · next => exact parseUnsignedQ_no_digits h

/-- C7 (amended): `parseFrequency` strips every character that is not a
digit, a decimal point, or a minus sign — keeping minus signs and dots
wherever they occur, not only a leading minus — then parses the longest
valid leading decimal prefix of the remainder, `NaN` (`none`) when the
input has no digit; in particular `parseFrequency "118.000 MHz" = 118`,
and a minus kept from mid-text makes the parse negative. -/
theorem parseFrequency_amended :
    parseFrequency "118.000 MHz" = some 118 ∧
    parseFrequency "-3.5" = some (-(7 / 2 : ℚ)) ∧
    parseFrequency "a-5" = some (-5) ∧
    (∀ s : String, (∀ c ∈ s.toList, c.isDigit = false) →
      parseFrequency s = none) := by
  have e1 : parseFrequency "118.000 MHz" =
      some ((digitsToNat ['1', '1', '8'] : ℚ) +
        (digitsToNat ['0', '0', '0'] : ℚ) /
          10 ^ (List.length ['0', '0', '0'])) := rfl
  have e2 : parseFrequency "-3.5" =
      some (-((digitsToNat ['3'] : ℚ) +
        (digitsToNat ['5'] : ℚ) / 10 ^ (List.length ['5']))) := rfl
  refine ⟨?_, ?_, by decide, ?_⟩
  · rw [e1, show digitsToNat ['1', '1', '8'] = 118 from by decide,
      show digitsToNat ['0', '0', '0'] = 0 from by decide]
    norm_num
  · rw [e2, show digitsToNat ['3'] = 3 from by decide,
      show digitsToNat ['5'] = 5 from by decide]
    norm_num
  intro s h
  unfold parseFrequency
  exact parseFloatQ_no_digits
    (fun c hc => h c (List.mem_filter.mp hc).1)

/-- Witness for C7 (amended) at a concrete input: text without digits
parses to `NaN`. -/
theorem parseFrequency_amended_witness : parseFrequency " MHz" = none :=
  parseFrequency_amended.2.2.2 " MHz" (by decide)

end Intercept
